import Mathlib

/-!
# EmberDroplet: the file admission engine of `src/components/Droplet.js`

A shallow embedding of the `Droplet` mixin: the `Model` class, the status
flags, the validator `isValid`, the status views, and the actions `mimeTypes`,
`addFiles`, `deleteFiles`, `clearFiles`, `uploadFiles` and `abortUpload`,
together with the forwarding method of the `Droplet.Area` mixin.

Modelling conventions.

* `Model` instances are JavaScript objects with identity. They live in a heap
  `Ref → Model`; the collection `files` is a list of references, so the same
  object may occur several times in it.
* A file size is a non-negative integer or `Infinity` (`Num`); sizes are added
  as doubles, which is exact as long as the sum is at most `2 ^ 53`.
* A raised JavaScript exception is recorded in `Outcome.raised`, next to the
  engine state at the moment it was raised.
* Hooks are host callbacks; every invocation is appended to `hookLog` with its
  argument list.
* `new RegExp(string)` belongs to the JavaScript runtime, not to the
  repository: it is the parameter `newRegExp`, where `none` stands for the
  `SyntaxError` the constructor raises on an ill-formed pattern.
* Computed properties are read after their dependencies were invalidated, so
  a view is a function of the current state.
* The promise of `uploadFiles` settles after the call returned: the call
  yields the response the promise is resolved with, and the fulfilment
  callback is a function of the state the engine is in at that later moment.
-/

namespace Droplet

/-! ## Numbers -/

/-- The numbers the engine handles: JavaScript numbers (IEEE 754 doubles) that
are a non-negative integer, such as a byte count, or `Infinity`. -/
inductive Num where
  | fin (n : Nat)
  | infinity
  deriving DecidableEq

/-- The number of times `n` must be halved to get below `2 ^ 53`: the bits of
`n` in excess of the 53 significant bits of a double. -/
def excessBits : Nat → Nat → Nat
  | 0, _ => 0
  | fuel + 1, n => if n < 2 ^ 53 then 0 else excessBits fuel (n / 2) + 1

namespace Num

/-- The double that an exact integer result is rounded to: the integer itself
up to `2 ^ 53`; beyond, the integer rounded to 53 significant bits, to the
nearest double and to the one with an even significand on a tie; `Infinity`
when the rounded value reaches `2 ^ 1024`. -/
def ofNatRounded (n : Nat) : Num :=
  if n ≤ 2 ^ 53 then fin n
  else
    let shift := excessBits n n
    let q := n / 2 ^ shift
    let rem := n % 2 ^ shift
    let half := 2 ^ (shift - 1)
    let q1 := if half < rem ∨ (rem = half ∧ q % 2 = 1) then q + 1 else q
    if excessBits (q1 * 2 ^ shift) (q1 * 2 ^ shift) ≤ 971 then fin (q1 * 2 ^ shift)
    else infinity

/-- JavaScript `a + b` on `Num`: the exact sum, rounded to a double. -/
def add : Num → Num → Num
  | fin a, fin b => ofNatRounded (a + b)
  | _, _ => infinity

/-- JavaScript `a <= b` on `Num`. -/
def le : Num → Num → Bool
  | fin a, fin b => decide (a ≤ b)
  | _, infinity => true
  | infinity, fin _ => false

/-- The value of a number as an extended natural number. -/
def toENat : Num → ℕ∞
  | fin n => n
  | infinity => ⊤

/-- The value of a finite number; 0 for `Infinity`. -/
def finitePart : Num → Nat
  | fin n => n
  | infinity => 0

end Num

instance : Add Num := ⟨Num.add⟩
instance : Zero Num := ⟨Num.fin 0⟩

/-! ## STATUS_TYPES and Model -/

/-- The flag `STATUS_TYPES.NONE`. -/
def NONE : Nat := 0
/-- The flag `STATUS_TYPES.VALID`. -/
def VALID : Nat := 1
/-- The flag `STATUS_TYPES.INVALID`. -/
def INVALID : Nat := 2
/-- The flag `STATUS_TYPES.DELETED`. -/
def DELETED : Nat := 4
/-- The flag `STATUS_TYPES.UPLOADED`. -/
def UPLOADED : Nat := 8
/-- The flag `STATUS_TYPES.FAILED`. -/
def FAILED : Nat := 16

/-- A browser `File` handle, reduced to the two properties the engine reads;
`none` is `undefined`. A size is a byte count, an integer that a double holds
exactly. -/
structure File where
  type : Option String
  size : Option Nat
  deriving DecidableEq

/-- The class `Model`: a file handle and its status flag. -/
structure Model where
  file : File
  statusType : Nat
  deriving DecidableEq

namespace Model

/-- The constructor: `new Model(file)`. -/
def new (file : File) : Model := { file := file, statusType := NONE }

/-- The method `getMIMEType`: `this.file.type || ''`. -/
def getMIMEType (m : Model) : String :=
  match m.file.type with
  | some t => if t = "" then "" else t
  | none => ""

/-- The method `getFileSize`: the size, or `Infinity` when it is undefined. -/
def getFileSize (m : Model) : Num :=
  match m.file.size with
  | some n => Num.fin n
  | none => Num.infinity

/-- The method `setStatusType`. -/
def setStatusType (m : Model) (statusType : Nat) : Model :=
  { m with statusType := statusType }

end Model

/-! ## Configuration -/

/-- A JavaScript `RegExp` object, identified with its matching behaviour:
`test str` tells whether `str.match(re)` is non-null. -/
structure RegExp where
  test : String → Bool

/-- An entry of `options.mimeTypes`: a string or a `RegExp`. -/
inductive MimeType where
  | str (s : String)
  | regExp (r : RegExp)

namespace MimeType

/-- The test `mimeType instanceof RegExp`. -/
def isRegExp : MimeType → Bool
  | regExp _ => true
  | str _ => false

/-- The test `validMimeType === mimeType` against a string. -/
def strictEquals : MimeType → String → Bool
  | str s, t => decide (s = t)
  | regExp _, _ => false

end MimeType

/-- The options map of the engine. -/
structure Options where
  requestMethod : String
  maximumSize : Num
  includeHeader : Bool
  useArray : Bool
  mimeTypes : List MimeType

/-- The constant `DEFAULT_OPTIONS`. -/
def DEFAULT_OPTIONS : Options :=
  { requestMethod := "POST"
    maximumSize := Num.infinity
    includeHeader := true
    useArray := false
    mimeTypes := [MimeType.str "image/jpeg", MimeType.str "image/jpg", MimeType.str "image/gif",
      MimeType.str "image/png", MimeType.str "image/tiff", MimeType.str "image/bmp"] }

/-! ## Engine state -/

/-- A reference to a `Model` object. -/
abbrev Ref := Nat

/-- A JavaScript value handed to an action. -/
inductive Value where
  | model (ref : Ref)
  | file (f : File)
  | array (fs : List File)
  deriving DecidableEq

/-- One hook invocation with its argument list. -/
inductive HookCall where
  | didAdd (args : List Ref)
  | didDelete (args : List Ref)
  | didUpload (args : List Ref)
  deriving DecidableEq

/-- The errors an action can raise. -/
inductive JsError where
  | syntaxError
  | urlRequired
  deriving DecidableEq

deriving instance DecidableEq for Except

/-- The `url` property: the default (a function that throws), a plain value,
or a function returning a value. -/
inductive Url where
  | default
  | value (v : String)
  | func (v : String)
  deriving DecidableEq

/-- The state of one engine instance, with the heap of `Model` objects. -/
structure State where
  models : Ref → Model
  files : List Ref
  options : Options
  url : Url
  uploading : Bool
  lastRequest : Bool
  hookLog : List HookCall

/-- The result of running an action: the state reached and the exception
raised, if any. -/
structure Outcome where
  state : State
  raised : Option JsError

/-- The method `init`: an empty collection and the default options. -/
def init (heap : Ref → Model) (url : Url) : State :=
  { models := heap, files := [], options := DEFAULT_OPTIONS, url := url,
    uploading := false, lastRequest := false, hookLog := [] }

/-! ## Views -/

/-- The method `getFiles`: the records whose flag has a bit in common with
`statusType`, in collection order. -/
def getFiles (s : State) (statusType : Nat) : List Ref :=
  s.files.filter fun r => (s.models r).statusType &&& statusType != 0

/-- The property `validFiles`. -/
def validFiles (s : State) : List Ref := getFiles s VALID
/-- The property `invalidFiles`. -/
def invalidFiles (s : State) : List Ref := getFiles s INVALID
/-- The property `uploadedFiles`. -/
def uploadedFiles (s : State) : List Ref := getFiles s UPLOADED
/-- The property `deletedFiles`. -/
def deletedFiles (s : State) : List Ref := getFiles s DELETED

/-- The property `requestSize`: `reduce` over `validFiles`, from 0. -/
def requestSize (s : State) : Num :=
  (validFiles s).foldl (fun size r => size + (s.models r).getFileSize) 0

/-! ## The validator -/

/-- The call `str.match(pattern)`, as a truth value: a `RegExp` is applied as
it is, a string is first turned into one with `new RegExp`, which raises on an
ill-formed pattern. -/
def stringMatch (newRegExp : String → Option RegExp) (str : String) :
    MimeType → Except JsError Bool
  | MimeType.regExp r => Except.ok (r.test str)
  | MimeType.str p =>
    match newRegExp p with
    | some r => Except.ok (r.test str)
    | none => Except.error JsError.syntaxError

/-- The call `mimeTypes.some(...)` of the pattern branch of `validMime`: both
`isExact` and `isRegExp` are computed for an entry before they are combined. -/
def someMime (newRegExp : String → Option RegExp) (mimeType : String) :
    List MimeType → Except JsError Bool
  | [] => Except.ok false
  | validMimeType :: rest =>
    let isExact := validMimeType.strictEquals mimeType
    match stringMatch newRegExp mimeType validMimeType with
    | Except.error e => Except.error e
    | Except.ok isRegExp =>
      if isExact || isRegExp then Except.ok true else someMime newRegExp mimeType rest

/-- The closure `validMime(mimeType)`. -/
def validMime (newRegExp : String → Option RegExp) (options : Options) (mimeType : String) :
    Unit → Except JsError Bool := fun _ =>
  let anyRegExp := options.mimeTypes.any MimeType.isRegExp
  if !anyRegExp then
    Except.ok (options.mimeTypes.any fun e => e.strictEquals mimeType)
  else
    someMime newRegExp mimeType options.mimeTypes

/-- The closure `validSize(fileSize)`. -/
def validSize (options : Options) (fileSize : Num) : Unit → Except JsError Bool := fun _ =>
  Except.ok (fileSize.le options.maximumSize)

/-- The call `fns.every(fn => fn(model))`: stops at the first `false`. -/
def every : List (Unit → Except JsError Bool) → Except JsError Bool
  | [] => Except.ok true
  | fn :: rest =>
    match fn () with
    | Except.error e => Except.error e
    | Except.ok b => if b then every rest else Except.ok false

/-- The helper `composeEvery`: the checks run in reverse order. -/
def composeEvery (fns : List (Unit → Except JsError Bool)) : Except JsError Bool :=
  every fns.reverse

/-- The method `isValid`. -/
def isValid (newRegExp : String → Option RegExp) (options : Options) (model : Model) :
    Except JsError Bool :=
  composeEvery [validMime newRegExp options model.getMIMEType, validSize options model.getFileSize]

/-! ## Actions -/

/-- The value `MIME_MODE.PUSH`. -/
def MIME_MODE_PUSH : String := "push"
/-- The value `MIME_MODE.SET`. -/
def MIME_MODE_SET : String := "set"

/-- The first argument of the `mimeTypes` action: an array or a single value. -/
inductive MimeArg where
  | single (v : MimeType)
  | array (vs : List MimeType)

/-- The expression `Array.isArray(mimeTypes) ? mimeTypes : [mimeTypes]`. -/
def MimeArg.toArray : MimeArg → List MimeType
  | MimeArg.array vs => vs
  | MimeArg.single v => [v]

/-- The action `mimeTypes`; `mode = none` is an omitted second argument. -/
def mimeTypes (s : State) (mimeTypes : MimeArg) (mode : Option String) : Outcome :=
  let mode := mode.getD MIME_MODE_PUSH
  let s1 : State :=
    if mode = MIME_MODE_SET then { s with options := { s.options with mimeTypes := [] } } else s
  let mimeTypes : List MimeType := mimeTypes.toArray
  let types := s1.options.mimeTypes ++ mimeTypes
  { state := { s1 with options := { s1.options with mimeTypes := types } }, raised := none }

/-- The `map` callback loop of `addFiles`: `added` collects the values that
are not `undefined`. An exception leaves the loop with the state reached. -/
def addFilesMap (newRegExp : String → Option RegExp) :
    State → List Ref → List Value → State × List Ref × Option JsError
  | s, added, [] => (s, added, none)
  | s, added, Value.model r :: rest =>
    match isValid newRegExp s.options (s.models r) with
    | Except.error e => (s, added, some e)
    | Except.ok valid =>
      let m := (s.models r).setStatusType (if valid then VALID else INVALID)
      let s1 := { s with models := Function.update s.models r m, files := s.files ++ [r] }
      addFilesMap newRegExp s1 (added ++ [r]) rest
  | s, added, _ :: rest => addFilesMap newRegExp s added rest

/-- The action `addFiles`. -/
def addFiles (newRegExp : String → Option RegExp) (s : State) (files : List Value) : Outcome :=
  match addFilesMap newRegExp s [] files with
  | (s1, _, some e) => { state := s1, raised := some e }
  | (s1, addedFiles, none) =>
    if addedFiles.length != 0 then
      { state := { s1 with hookLog := s1.hookLog ++ [HookCall.didAdd addedFiles] }, raised := none }
    else
      { state := s1, raised := none }

/-- The `map` callback loop of `deleteFiles`; `removeObject` takes out every
occurrence of the record. -/
def deleteFilesMap : State → List Ref → List Value → State × List Ref
  | s, deleted, [] => (s, deleted)
  | s, deleted, Value.model r :: rest =>
    let contains := decide (r ∈ s.files)
    if contains then
      let m := (s.models r).setStatusType DELETED
      let s1 := { s with models := Function.update s.models r m,
                         files := s.files.filter fun x => x != r }
      deleteFilesMap s1 (deleted ++ [r]) rest
    else
      deleteFilesMap s deleted rest
  | s, deleted, _ :: rest => deleteFilesMap s deleted rest

/-- The action `deleteFiles`. -/
def deleteFiles (s : State) (files : List Value) : Outcome :=
  match deleteFilesMap s [] files with
  | (s1, deletedFiles) =>
    if deletedFiles.length != 0 then
      { state := { s1 with hookLog := s1.hookLog ++ [HookCall.didDelete deletedFiles] },
        raised := none }
    else
      { state := s1, raised := none }

/-- The loop `this.files.forEach(...)` of `clearFiles` over the live array:
the index runs over the length read at the start, an index past the current
end is skipped, and the callback sends `deleteFiles` with the element found. -/
def clearFilesForEach (s : State) : List Nat → State
  | [] => s
  | k :: ks =>
    match s.files.get? k with
    | some r => clearFilesForEach (deleteFiles s [Value.model r]).state ks
    | none => clearFilesForEach s ks

/-- The action `clearFiles`. -/
def clearFiles (s : State) : Outcome :=
  let s1 := clearFilesForEach s (List.range s.files.length)
  { state := { s1 with files := [] }, raised := none }

/-! ## Droplet.Area -/

/-- The method `Area.addFiles`: the whole array is sent as the one argument of
the `addFiles` action, when it is non-empty and the parent view can `send`. -/
def Area.addFiles (newRegExp : String → Option RegExp) (s : State) (parentSends : Bool)
    (models : List File) : Outcome :=
  if models.length != 0 && parentSends then
    Droplet.addFiles newRegExp s [Value.array models]
  else
    { state := s, raised := none }

/-- The method `Area.traverseFiles`: builds one `Model` per file, forwards the
files, and returns the models. -/
def Area.traverseFiles (newRegExp : String → Option RegExp) (s : State) (parentSends : Bool)
    (files : List File) : Outcome × List Model :=
  let models := files.foldl (fun current file => current ++ [Model.new file]) []
  (Area.addFiles newRegExp s parentSends files, models)

/-! ## A fragment of the runtime, for concrete evaluation -/

/-- The pattern `/^image\//`: matches the strings that start with `image/`. -/
def imagePattern : RegExp :=
  { test := fun str => "image/".toList.isPrefixOf str.toList }

/-- The constructor `new RegExp(p)` on two kinds of strings: a pattern that
starts with a quantifier is a `SyntaxError` (nothing to repeat), and a string
made of characters that stand for themselves (letters, digits, `/`, `-`)
searches for itself. It is applied to no other string. -/
def newRegExpLiteral (p : String) : Option RegExp :=
  match p.toList with
  | '*' :: _ => none
  | '+' :: _ => none
  | '?' :: _ => none
  | cs => some { test := fun str => (str.toList.tails.any fun t => cs.isPrefixOf t) }

/-! ## Concrete records and configurations -/

/-- A heap in which every `Model` wraps a PNG file of 10 bytes, not yet admitted. -/
def pngHeap : Ref → Model := fun _ => Model.new { type := some "image/png", size := some 10 }

/-- A configuration with one pattern entry: `mimeTypes = [/^image\//]`. -/
def imageOptions : Options := { DEFAULT_OPTIONS with mimeTypes := [MimeType.regExp imagePattern] }

/-- A configuration that mixes a pattern entry with the string `*/*`. -/
def wildcardOptions : Options :=
  { DEFAULT_OPTIONS with mimeTypes := [MimeType.regExp imagePattern, MimeType.str "*/*"] }

/-- A record whose content type is the string `*/*`. -/
def wildcardModel : Model := Model.new { type := some "*/*", size := some 10 }

/-- A GIF record of 10 bytes. -/
def gifModel : Model := Model.new { type := some "image/gif", size := some 10 }

/-- A heap in which every `Model` wraps a plain-text file of 10 bytes. -/
def textHeap : Ref → Model := fun _ => Model.new { type := some "text/plain", size := some 10 }

/-- A fresh engine whose allowed list was set to `[/^image\//, "*/*"]`. -/
def wildcardState : State :=
  (mimeTypes (init textHeap Url.default)
    (MimeArg.array [MimeType.regExp imagePattern, MimeType.str "*/*"]) (some MIME_MODE_SET)).state

/-- A heap for the scenario of the specification: record 0 is a PNG of 500
bytes, every other record a PNG of 2000 bytes. -/
def scenarioHeap : Ref → Model := fun r =>
  if r = 0 then Model.new { type := some "image/png", size := some 500 }
  else Model.new { type := some "image/png", size := some 2000 }

/-- A fresh engine configured with `mimeTypes = ["image/png"]` and
`maximumSize = 1000`. -/
def scenarioState : State :=
  { init scenarioHeap Url.default with
    options := { DEFAULT_OPTIONS with mimeTypes := [MimeType.str "image/png"],
                                      maximumSize := Num.fin 1000 } }

/-- A raw PNG file handle. -/
def pngFile : File := { type := some "image/png", size := some 10 }

/-- A fresh engine to which the records 0, 1 and 2 were added. -/
def threeValidState : State :=
  (addFiles newRegExpLiteral (init pngHeap Url.default)
    [Value.model 0, Value.model 1, Value.model 2]).state

/-- A fresh engine to which the record 0 was added twice. -/
def twiceAddedState : State :=
  (addFiles newRegExpLiteral (init pngHeap Url.default) [Value.model 0, Value.model 0]).state

/-- The `Model` values among the arguments of an action, in argument order. -/
def modelRefs : List Value → List Ref
  | [] => []
  | Value.model r :: rest => r :: modelRefs rest
  | _ :: rest => modelRefs rest

/-- The flag that admission gives a record: `VALID` when the validator
returns `true`, `INVALID` otherwise. -/
def admissionStatus (newRegExp : String → Option RegExp) (options : Options) (m : Model) : Nat :=
  if isValid newRegExp options m = Except.ok true then VALID else INVALID

/-- The heap after the records `refs` were classified under the options of `s`. -/
def admitted (newRegExp : String → Option RegExp) (s : State) (refs : List Ref) : Ref → Model :=
  fun x =>
    if x ∈ refs then (s.models x).setStatusType (admissionStatus newRegExp s.options (s.models x))
    else s.models x

/-- The records that a call of `deleteFiles` removes from the collection
`files`: the `Model` inputs found in it, each taken at its first occurrence
among the inputs. -/
def removedRefs : List Ref → List Value → List Ref
  | _, [] => []
  | files, Value.model r :: rest =>
    if r ∈ files then r :: removedRefs (files.filter fun x => x != r) rest
    else removedRefs files rest
  | files, _ :: rest => removedRefs files rest

/-- The heap after the records `refs` were flagged `DELETED`. -/
def markDeleted (models : Ref → Model) (refs : List Ref) : Ref → Model :=
  fun x => if x ∈ refs then (models x).setStatusType DELETED else models x

/-! ## Upload -/

/-- The expression that resolves the `url` property in `uploadFiles`: a
function is called, a plain value is taken as it is; the default is the
function that throws the URL-required error. -/
def resolveUrl : Url → Except JsError String
  | Url.default => Except.error JsError.urlRequired
  | Url.value v => Except.ok v
  | Url.func v => Except.ok v

/-- The synchronous part of the action `uploadFiles`: the outcome, and the
value `files` of the response the returned promise is resolved with (`none`
when the call raised before a promise was made). -/
def uploadFiles (s : State) : Outcome × Option (List Ref) :=
  match resolveUrl s.url with
  | Except.error e => ({ state := s, raised := some e }, none)
  | Except.ok _ =>
    let files := s.files.filter fun file => (s.models file).statusType &&& VALID != 0
    ({ state := s, raised := none }, some files)

/-- The fulfilment callback of the promise of `uploadFiles`, run on the state
`s` the engine is in when the promise settles: `didUpload(...response.files)`. -/
def uploadFilesThen (s : State) (files : List Ref) : State :=
  { s with hookLog := s.hookLog ++ [HookCall.didUpload files] }

/-- The action `abortUpload`. -/
def abortUpload (s : State) : Outcome :=
  if s.lastRequest && s.uploading then
    { state := { s with uploading := false }, raised := none }
  else
    { state := s, raised := none }

/-! ## Runs of the action protocol -/

/-- An event in the life of an engine: one of the six actions, the host
writing the options map, or the settling of the oldest pending upload promise. -/
inductive Action where
  | addFiles (files : List Value)
  | deleteFiles (files : List Value)
  | clearFiles
  | mimeTypes (mimeTypes : MimeArg) (mode : Option String)
  | uploadFiles
  | abortUpload
  | setOptions (options : Options)
  | settleUpload

/-- An engine in a run: its state, the responses of the upload promises that
have not settled yet (oldest first), and the records pushed to the collection
so far (a history, which the engine itself does not keep). -/
structure Run where
  state : State
  pending : List (List Ref)
  everAdded : List Ref

/-- A freshly initialised engine. -/
def Run.start (heap : Ref → Model) (url : Url) : Run :=
  { state := init heap url, pending := [], everAdded := [] }

/-- One event of a run. An action that raises leaves the state it reached. -/
def Run.step (newRegExp : String → Option RegExp) (e : Run) : Action → Run
  | Action.addFiles files =>
    { e with state := (addFiles newRegExp e.state files).state,
             everAdded := e.everAdded ++ (addFilesMap newRegExp e.state [] files).2.1 }
  | Action.deleteFiles files => { e with state := (deleteFiles e.state files).state }
  | Action.clearFiles => { e with state := (clearFiles e.state).state }
  | Action.mimeTypes arg mode => { e with state := (mimeTypes e.state arg mode).state }
  | Action.uploadFiles =>
    match uploadFiles e.state with
    | (out, some files) => { e with state := out.state, pending := e.pending ++ [files] }
    | (out, none) => { e with state := out.state }
  | Action.abortUpload => { e with state := (abortUpload e.state).state }
  | Action.setOptions options => { e with state := { e.state with options := options } }
  | Action.settleUpload =>
    match e.pending with
    | [] => e
    | files :: rest => { e with state := uploadFilesThen e.state files, pending := rest }

/-- A run: the events applied in order. -/
def Run.run (newRegExp : String → Option RegExp) (e : Run) (actions : List Action) : Run :=
  actions.foldl (Run.step newRegExp) e

/-- The records at the positions 0, 2, 4, ... of a list. -/
def evenPositions : List Ref → List Ref
  | [] => []
  | [a] => [a]
  | a :: _ :: rest => a :: evenPositions rest

/-- The records at the positions 1, 3, 5, ... of a list. -/
def oddPositions : List Ref → List Ref
  | [] => []
  | [_] => []
  | _ :: b :: rest => b :: oddPositions rest

/-- A configuration whose only entry is the string `*/*`. -/
def wildcardOnlyOptions : Options := { DEFAULT_OPTIONS with mimeTypes := [MimeType.str "*/*"] }

/-- The configuration `wildcardOnlyOptions` after the pattern `/^image\//` was
appended by the `mimeTypes` action. -/
def wildcardThenImageOptions : Options :=
  (mimeTypes { init pngHeap Url.default with options := wildcardOnlyOptions }
    (MimeArg.single (MimeType.regExp imagePattern)) none).state.options

/-- A fresh engine with a configured url to which record 0 was added. -/
def oneValidRun : Run :=
  Run.run newRegExpLiteral (Run.start pngHeap (Url.value "/upload"))
    [Action.addFiles [Value.model 0]]

/-- A fresh engine to which record 0 was added (as `VALID`) and whose allowed
list was then replaced by `["text/plain"]`. -/
def reconfiguredRun : Run :=
  Run.run newRegExpLiteral (Run.start pngHeap Url.default)
    [Action.addFiles [Value.model 0],
     Action.mimeTypes (MimeArg.single (MimeType.str "text/plain")) (some MIME_MODE_SET)]

/-- A fresh engine to which record 0 was added and then deleted. -/
def deletedRun : Run :=
  Run.run newRegExpLiteral (Run.start pngHeap Url.default)
    [Action.addFiles [Value.model 0], Action.deleteFiles [Value.model 0]]

/-- The status invariant of a heap `models`, a collection `files` and a
history `ever` of added records: a record in the collection is `VALID` or
`INVALID`, a record of the history is `VALID`, `INVALID` or `DELETED`, and the
collection holds only records of the history. -/
def StatusInvariant (models : Ref → Model) (files ever : List Ref) : Prop :=
  (∀ r ∈ files, (models r).statusType = VALID ∨ (models r).statusType = INVALID) ∧
  (∀ r ∈ ever, (models r).statusType = VALID ∨ (models r).statusType = INVALID ∨
    (models r).statusType = DELETED) ∧
  (∀ r ∈ files, r ∈ ever)

/-- The exact sum of the known sizes of the records in `validFiles`. -/
def validTotal (s : State) : Nat :=
  ((validFiles s).map fun r => (s.models r).getFileSize.finitePart).sum

/-- A heap in which record 0 is a PNG of `2 ^ 53` bytes and every other record
a PNG of one byte. -/
def hugeHeap : Ref → Model := fun r =>
  if r = 0 then Model.new { type := some "image/png", size := some (2 ^ 53) }
  else Model.new { type := some "image/png", size := some 1 }

/-- A fresh engine to which the records 0, 1 and 2 of `hugeHeap` were added. -/
def hugeState : State :=
  (addFiles newRegExpLiteral (init hugeHeap Url.default)
    [Value.model 0, Value.model 1, Value.model 2]).state

/-! ## The validator: exact mode and pattern mode -/

theorem strictEquals_eq_true (e : MimeType) (t : String) :
    e.strictEquals t = true ↔ e = MimeType.str t := by
  cases e <;> simp [MimeType.strictEquals]

theorem any_strictEquals (l : List MimeType) (t : String) :
    (l.any fun e => e.strictEquals t) = true ↔ MimeType.str t ∈ l := by
  simp only [List.any_eq_true, strictEquals_eq_true]
  constructor
  · rintro ⟨e, he, rfl⟩
    exact he
  · intro h
    exact ⟨_, h, rfl⟩

/-- The size check runs first; the content type is only looked at when it passes. -/
theorem isValid_eq (newRegExp : String → Option RegExp) (options : Options) (model : Model) :
    isValid newRegExp options model =
      if model.getFileSize.le options.maximumSize = true then
        validMime newRegExp options model.getMIMEType ()
      else Except.ok false := by
  simp only [isValid, composeEvery, every, validSize, List.reverse_cons, List.reverse_nil,
    List.nil_append, List.singleton_append]
  cases model.getFileSize.le options.maximumSize
  · simp
  · simp only [if_true]
    cases validMime newRegExp options model.getMIMEType () with
    | error e => rfl
    | ok b => cases b <;> rfl

theorem validMime_exact (newRegExp : String → Option RegExp) (options : Options)
    (mimeType : String) (h : options.mimeTypes.any MimeType.isRegExp = false) :
    validMime newRegExp options mimeType () =
      Except.ok (options.mimeTypes.any fun e => e.strictEquals mimeType) := by
  simp [validMime, h]

/-- C1. Exact mode: when `mimeTypes` holds no `RegExp`, `isValid` returns a
boolean, which is `true` exactly when the content type of the record is an
entry of the list and its size is at most `maximumSize`; evaluating the two
checks in the other order gives the same result; a record of unknown size is
rejected for a finite `maximumSize` and passes the size check for an infinite
one. -/
theorem isValid_exact_mode (newRegExp : String → Option RegExp) (options : Options)
    (model : Model) (h : options.mimeTypes.any MimeType.isRegExp = false) :
    (∃ b, isValid newRegExp options model = Except.ok b) ∧
    (isValid newRegExp options model = Except.ok true ↔
      (MimeType.str model.getMIMEType ∈ options.mimeTypes ∧
        model.getFileSize.le options.maximumSize = true)) ∧
    (composeEvery [validSize options model.getFileSize,
        validMime newRegExp options model.getMIMEType] = isValid newRegExp options model) ∧
    (model.file.size = none → ∀ n, options.maximumSize = Num.fin n →
      isValid newRegExp options model = Except.ok false) ∧
    (model.file.size = none → options.maximumSize = Num.infinity →
      validSize options model.getFileSize () = Except.ok true) := by
  have hany := any_strictEquals options.mimeTypes model.getMIMEType
  have hmime := validMime_exact newRegExp options model.getMIMEType h
  rw [isValid_eq, hmime]
  refine ⟨?_, ?_, ?_, ?_, ?_⟩
  · split
    · exact ⟨_, rfl⟩
    · exact ⟨_, rfl⟩
  · rw [← hany]
    cases model.getFileSize.le options.maximumSize <;> simp
  · simp only [composeEvery, every, validSize, hmime, List.reverse_cons, List.reverse_nil,
      List.nil_append, List.singleton_append]
    cases model.getFileSize.le options.maximumSize <;>
      cases (options.mimeTypes.any fun e => e.strictEquals model.getMIMEType) <;> rfl
  · intro hsize n hmax
    simp [Model.getFileSize, hsize, hmax, Num.le]
  · intro hsize hmax
    simp [validSize, Model.getFileSize, hsize, hmax, Num.le]

/-- A PNG of 10 bytes is valid under the default options, which hold no pattern. -/
theorem isValid_exact_mode_witness :
    DEFAULT_OPTIONS.mimeTypes.any MimeType.isRegExp = false ∧
    isValid newRegExpLiteral DEFAULT_OPTIONS (pngHeap 0) = Except.ok true :=
  ⟨by decide,
   (isValid_exact_mode newRegExpLiteral DEFAULT_OPTIONS (pngHeap 0) (by decide)).2.1.mpr
     ⟨by simp [DEFAULT_OPTIONS, pngHeap, Model.new, Model.getMIMEType], by decide⟩⟩

/-- The pattern branch on a list whose string entries are all well-formed
patterns: it returns a boolean, `true` exactly when some entry equals the
content type or matches it. -/
theorem someMime_of_wellFormed (newRegExp : String → Option RegExp) (mimeType : String)
    (l : List MimeType) (hwf : ∀ p, MimeType.str p ∈ l → (newRegExp p).isSome = true) :
    ∃ b, someMime newRegExp mimeType l = Except.ok b ∧
      (b = true ↔ ∃ e ∈ l, e = MimeType.str mimeType ∨
        stringMatch newRegExp mimeType e = Except.ok true) := by
  induction l with
  | nil => exact ⟨false, rfl, by simp⟩
  | cons e l ih =>
    obtain ⟨b, hb, hiff⟩ := ih (fun p hp => hwf p (List.mem_cons_of_mem _ hp))
    have hmatch : ∃ m, stringMatch newRegExp mimeType e = Except.ok m := by
      cases e with
      | regExp r => exact ⟨_, rfl⟩
      | str p =>
        have := hwf p (List.mem_cons_self _ _)
        cases hp : newRegExp p with
        | none => simp [hp] at this
        | some r => exact ⟨r.test mimeType, by simp [stringMatch, hp]⟩
    obtain ⟨m, hm⟩ := hmatch
    by_cases hor : (e.strictEquals mimeType || m) = true
    · refine ⟨true, by simp [someMime, hm, hor], ?_⟩
      simp only [true_iff]
      refine ⟨e, List.mem_cons_self _ _, ?_⟩
      rcases Bool.or_eq_true _ _ |>.mp hor with h1 | h1
      · exact Or.inl ((strictEquals_eq_true e mimeType).mp h1)
      · exact Or.inr (by rw [hm, h1])
    · refine ⟨b, by simp [someMime, hm, hor, hb], ?_⟩
      rw [hiff]
      constructor
      · rintro ⟨x, hx, hx2⟩
        exact ⟨x, List.mem_cons_of_mem _ hx, hx2⟩
      · rintro ⟨x, hx, hx2⟩
        rcases List.mem_cons.mp hx with rfl | hx
        · exfalso
          apply hor
          rcases hx2 with h1 | h1
          · simp [(strictEquals_eq_true x mimeType).mpr h1]
          · rw [hm] at h1
            injection h1 with h1
            simp [h1]
        · exact ⟨x, hx, hx2⟩

/-- Pattern mode when every string entry is a well-formed pattern: `isValid`
returns a boolean, `true` exactly when the content type equals some entry or
matches some entry taken as a pattern, and the size is at most `maximumSize`. -/
theorem isValid_pattern_mode_of_wellFormed (newRegExp : String → Option RegExp)
    (options : Options) (model : Model)
    (h : options.mimeTypes.any MimeType.isRegExp = true)
    (hwf : ∀ p, MimeType.str p ∈ options.mimeTypes → (newRegExp p).isSome = true) :
    (∃ b, isValid newRegExp options model = Except.ok b) ∧
    (isValid newRegExp options model = Except.ok true ↔
      ((∃ e ∈ options.mimeTypes, e = MimeType.str model.getMIMEType ∨
          stringMatch newRegExp model.getMIMEType e = Except.ok true) ∧
        model.getFileSize.le options.maximumSize = true)) := by
  obtain ⟨b, hb, hiff⟩ := someMime_of_wellFormed newRegExp model.getMIMEType options.mimeTypes hwf
  have hmime : validMime newRegExp options model.getMIMEType () = Except.ok b := by
    simp [validMime, h, hb]
  rw [isValid_eq, hmime]
  constructor
  · split
    · exact ⟨_, rfl⟩
    · exact ⟨_, rfl⟩
  · rw [← hiff]
    cases model.getFileSize.le options.maximumSize <;> simp

/-- The scenario of the specification: with `mimeTypes = [/^image\//]` and the
default `maximumSize`, a record of content type `image/gif` is valid. -/
theorem isValid_imageOptions_gif :
    isValid newRegExpLiteral imageOptions gifModel = Except.ok true := by
  decide

/-- C2. Pattern mode raises on a string entry that is not a well-formed
pattern: with `mimeTypes = [/^image\//, "*/*"]` a record of content type `*/*`
equals an entry verbatim and is within `maximumSize`, and `isValid` raises a
`SyntaxError` instead of returning `true`. -/
theorem isValid_pattern_mode_raises :
    wildcardOptions.mimeTypes.any MimeType.isRegExp = true ∧
    MimeType.str wildcardModel.getMIMEType ∈ wildcardOptions.mimeTypes ∧
    wildcardModel.getFileSize.le wildcardOptions.maximumSize = true ∧
    isValid newRegExpLiteral wildcardOptions wildcardModel =
      Except.error JsError.syntaxError := by
  refine ⟨by decide, ?_, by decide, by decide⟩
  simp [wildcardOptions, wildcardModel, Model.new, Model.getMIMEType]

/-! ## The action `mimeTypes` -/

/-- C9. The `mimeTypes` action: with the mode omitted or `push` the allowed
list becomes the old list followed by the supplied values (a single value
counting as a one-element list), with the mode `set` it becomes exactly the
supplied values; `mimeTypes("text/plain", SET)` followed by
`mimeTypes("image/png")` leaves exactly `["text/plain", "image/png"]`. -/
theorem mimeTypes_result (s : State) :
    (∀ vs, (mimeTypes s (MimeArg.array vs) none).state.options.mimeTypes
      = s.options.mimeTypes ++ vs) ∧
    (∀ v, (mimeTypes s (MimeArg.single v) none).state.options.mimeTypes
      = s.options.mimeTypes ++ [v]) ∧
    (∀ vs, (mimeTypes s (MimeArg.array vs) (some MIME_MODE_PUSH)).state.options.mimeTypes
      = s.options.mimeTypes ++ vs) ∧
    (∀ v, (mimeTypes s (MimeArg.single v) (some MIME_MODE_PUSH)).state.options.mimeTypes
      = s.options.mimeTypes ++ [v]) ∧
    (∀ vs, (mimeTypes s (MimeArg.array vs) (some MIME_MODE_SET)).state.options.mimeTypes = vs) ∧
    (∀ v, (mimeTypes s (MimeArg.single v) (some MIME_MODE_SET)).state.options.mimeTypes = [v]) ∧
    (mimeTypes (mimeTypes s (MimeArg.single (MimeType.str "text/plain")) (some MIME_MODE_SET)).state
        (MimeArg.single (MimeType.str "image/png")) none).state.options.mimeTypes
      = [MimeType.str "text/plain", MimeType.str "image/png"] := by
  refine ⟨?_, ?_, ?_, ?_, ?_, ?_, ?_⟩ <;>
    simp [mimeTypes, MIME_MODE_PUSH, MIME_MODE_SET, MimeArg.toArray]

/-! ## The action `addFiles` -/

theorem isValid_congr_file (newRegExp : String → Option RegExp) (options : Options)
    (m₁ m₂ : Model) (h : m₁.file = m₂.file) :
    isValid newRegExp options m₁ = isValid newRegExp options m₂ := by
  simp [isValid, Model.getMIMEType, Model.getFileSize, h]

theorem modelRefs_nil_of_no_model (files : List Value)
    (h : ∀ v ∈ files, ∀ r, v ≠ Value.model r) : modelRefs files = [] := by
  induction files with
  | nil => rfl
  | cons v rest ih =>
    have hrest := ih (fun w hw => h w (List.mem_cons_of_mem _ hw))
    cases v with
    | model r => exact absurd rfl (h _ (List.mem_cons_self _ _) r)
    | file f => simpa [modelRefs] using hrest
    | array fs => simpa [modelRefs] using hrest

theorem mem_modelRefs (files : List Value) (r : Ref) :
    r ∈ modelRefs files ↔ Value.model r ∈ files := by
  induction files with
  | nil => simp [modelRefs]
  | cons v rest ih =>
    cases v <;> simp [modelRefs, ih]

/-- The `map` loop of `addFiles` when the validator raises on no input: every
`Model` argument is classified and pushed, in argument order. -/
theorem addFilesMap_ok (newRegExp : String → Option RegExp) :
    ∀ (files : List Value) (s : State) (added : List Ref),
      (∀ r, Value.model r ∈ files → ∃ b, isValid newRegExp s.options (s.models r) = Except.ok b) →
      addFilesMap newRegExp s added files =
        ({ s with models := admitted newRegExp s (modelRefs files),
                  files := s.files ++ modelRefs files }, added ++ modelRefs files, none) := by
  intro files
  induction files with
  | nil =>
    intro s added _
    have hheap : admitted newRegExp s [] = s.models := by
      funext x
      simp [admitted]
    simp only [addFilesMap, modelRefs, List.append_nil, hheap]
  | cons v rest ih =>
    intro s added h
    cases v with
    | file f =>
      simpa [addFilesMap, modelRefs] using
        ih s added (fun r hr => h r (List.mem_cons_of_mem _ hr))
    | array fs =>
      simpa [addFilesMap, modelRefs] using
        ih s added (fun r hr => h r (List.mem_cons_of_mem _ hr))
    | model r =>
      obtain ⟨b, hb⟩ := h r (List.mem_cons_self _ _)
      have hfile : ∀ x, ((Function.update s.models r
          ((s.models r).setStatusType (if b then VALID else INVALID))) x).file
          = (s.models x).file := by
        intro x
        by_cases hx : x = r
        · subst hx; simp [Model.setStatusType]
        · simp [Function.update_noteq hx]
      have hrest := ih
        { s with models := Function.update s.models r
                   ((s.models r).setStatusType (if b then VALID else INVALID)),
                 files := s.files ++ [r] } (added ++ [r])
        (fun x hx => by
          obtain ⟨c, hc⟩ := h x (List.mem_cons_of_mem _ hx)
          exact ⟨c, by rw [← hc]; exact isValid_congr_file _ _ _ _ (hfile x)⟩)
      simp only [addFilesMap, hb, hrest, modelRefs, List.append_assoc, List.singleton_append]
      congr 2
      funext x
      have hst : admissionStatus newRegExp s.options
          (Function.update s.models r
            ((s.models r).setStatusType (if b then VALID else INVALID)) x)
          = admissionStatus newRegExp s.options (s.models x) := by
        simp only [admissionStatus, isValid_congr_file _ _ _ _ (hfile x)]
      simp only [admitted, hst, List.mem_cons]
      by_cases hxr : x = r
      · subst hxr
        simp only [true_or, if_true, Function.update_same]
        by_cases hmem : x ∈ modelRefs rest
        · simp [hmem, Model.setStatusType]
        · simp only [hmem, if_false]
          cases b <;> simp [admissionStatus, hb]
      · simp [hxr, Function.update_noteq hxr]

/-- The action `addFiles` when the validator raises on no input: the `Model`
arguments are appended in argument order, each classified `VALID` or
`INVALID` by the validator, and `didAdd` is invoked with all of them when
there is at least one. -/
theorem addFiles_ok (newRegExp : String → Option RegExp) (s : State) (files : List Value)
    (h : ∀ r, Value.model r ∈ files →
      ∃ b, isValid newRegExp s.options (s.models r) = Except.ok b) :
    addFiles newRegExp s files =
      { state := { s with
          models := admitted newRegExp s (modelRefs files),
          files := s.files ++ modelRefs files,
          hookLog := s.hookLog ++
            (if modelRefs files = [] then [] else [HookCall.didAdd (modelRefs files)]) },
        raised := none } := by
  simp only [addFiles, addFilesMap_ok newRegExp files s [] h, List.nil_append]
  cases hrefs : modelRefs files <;> simp

/-- A call of `addFiles` without any `Model` among its inputs changes nothing. -/
theorem addFiles_of_no_model (newRegExp : String → Option RegExp) (s : State)
    (files : List Value) (h : ∀ v ∈ files, ∀ r, v ≠ Value.model r) :
    addFiles newRegExp s files = { state := s, raised := none } := by
  have hrefs := modelRefs_nil_of_no_model files h
  have hheap : admitted newRegExp s [] = s.models := by
    funext x
    simp [admitted]
  rw [addFiles_ok newRegExp s files (fun r hr => absurd rfl (h _ hr r))]
  simp [hrefs, hheap]

/-- C3. With `mimeTypes = [/^image\//, "*/*"]`, adding one plain-text record
raises a `SyntaxError` out of the validator: the record is not appended to the
collection and keeps the status `NONE`, instead of being stored as `INVALID`. -/
theorem addFiles_raises_unclassified :
    (addFiles newRegExpLiteral wildcardState [Value.model 0]).raised
      = some JsError.syntaxError ∧
    (addFiles newRegExpLiteral wildcardState [Value.model 0]).state.files = [] ∧
    (addFiles newRegExpLiteral wildcardState [Value.model 0]).state.files
      ≠ wildcardState.files ++ [0] ∧
    ((addFiles newRegExpLiteral wildcardState [Value.model 0]).state.models 0).statusType
      = NONE := by
  decide

/-- C4, the scenario of the claim: under `mimeTypes = ["image/png"]` and
`maximumSize = 1000`, adding one PNG record of 2000 bytes sets its status to
`INVALID` and does invoke `didAdd`, with that record. -/
theorem addFiles_invalid_invokes_didAdd :
    ((addFiles newRegExpLiteral scenarioState [Value.model 1]).state.models 1).statusType
      = INVALID ∧
    (addFiles newRegExpLiteral scenarioState [Value.model 1]).state.hookLog
      = [HookCall.didAdd [1]] ∧
    (addFiles newRegExpLiteral scenarioState [Value.model 1]).state.hookLog
      ≠ scenarioState.hookLog := by
  decide

/-- C4, amended. When the validator raises on no input, `addFiles` completes
and `didAdd` is invoked once with exactly the `Model` inputs of the call, in
input order, whatever their classification (each has the status `VALID` when
the validator returned `true` and `INVALID` otherwise); it is not invoked when
the call has no `Model` input. -/
theorem addFiles_didAdd_all (newRegExp : String → Option RegExp) (s : State)
    (files : List Value)
    (h : ∀ r, Value.model r ∈ files →
      ∃ b, isValid newRegExp s.options (s.models r) = Except.ok b) :
    (addFiles newRegExp s files).raised = none ∧
    (addFiles newRegExp s files).state.hookLog = s.hookLog ++
      (if modelRefs files = [] then [] else [HookCall.didAdd (modelRefs files)]) ∧
    (∀ r ∈ modelRefs files, ((addFiles newRegExp s files).state.models r).statusType =
      if isValid newRegExp s.options (s.models r) = Except.ok true then VALID else INVALID) := by
  rw [addFiles_ok newRegExp s files h]
  refine ⟨rfl, rfl, ?_⟩
  intro r hr
  simp [admitted, hr, Model.setStatusType, admissionStatus]

/-- In the scenario of the claim the validator returns `false`, and `didAdd`
receives the `INVALID` record. -/
theorem addFiles_didAdd_all_witness :
    isValid newRegExpLiteral scenarioState.options (scenarioState.models 1) = Except.ok false ∧
    (addFiles newRegExpLiteral scenarioState [Value.model 1]).state.hookLog
      = scenarioState.hookLog ++ [HookCall.didAdd [1]] ∧
    ((addFiles newRegExpLiteral scenarioState [Value.model 1]).state.models 1).statusType
      = INVALID :=
  have h := addFiles_didAdd_all newRegExpLiteral scenarioState [Value.model 1]
    (fun r hr => by
      have hr1 : r = 1 := by simpa using hr
      subst hr1
      exact ⟨false, by decide⟩)
  ⟨by decide, h.2.1, h.2.2 1 (by simp [modelRefs])⟩

/-- C5, counterexample. Passing one raw file handle to `addFiles` on a fresh
engine leaves the collection empty: it has not grown by one record. -/
theorem addFiles_raw_handle_not_admitted :
    (addFiles newRegExpLiteral (init pngHeap Url.default) [Value.file pngFile]).state.files.length
      ≠ (init pngHeap Url.default).files.length + 1 ∧
    (addFiles newRegExpLiteral (init pngHeap Url.default) [Value.file pngFile]).state.files = [] ∧
    (addFiles newRegExpLiteral (init pngHeap Url.default) [Value.file pngFile]).state.hookLog
      = [] := by
  decide

/-- C5, amended. `addFiles` admits only inputs that are `Model` instances: a
call whose inputs are all something else (raw file handles, arrays) drops
them without wrapping, classifying or appending anything and without invoking
a hook, so the engine state is unchanged. -/
theorem addFiles_drops_non_models (newRegExp : String → Option RegExp) (s : State)
    (files : List Value) (h : ∀ v ∈ files, ∀ r, v ≠ Value.model r) :
    addFiles newRegExp s files = { state := s, raised := none } :=
  addFiles_of_no_model newRegExp s files h

/-- Two raw handles passed to a fresh engine leave it as it was. -/
theorem addFiles_drops_non_models_witness :
    addFiles newRegExpLiteral (init pngHeap Url.default)
        [Value.file pngFile, Value.file pngFile]
      = { state := init pngHeap Url.default, raised := none } :=
  addFiles_drops_non_models newRegExpLiteral (init pngHeap Url.default)
    [Value.file pngFile, Value.file pngFile]
    (fun v hv r => by
      have hv1 : v = Value.file pngFile := by simpa using hv
      subst hv1
      exact fun hne => Value.noConfusion hne)

/-- The drop surface forwards the raw files, as one array argument, and the
`addFiles` action drops that argument: a drop changes nothing in the engine. -/
theorem traverseFiles_adds_nothing (newRegExp : String → Option RegExp) (s : State)
    (parentSends : Bool) (files : List File) :
    (Area.traverseFiles newRegExp s parentSends files).1 = { state := s, raised := none } := by
  simp only [Area.traverseFiles, Area.addFiles]
  split
  · exact addFiles_of_no_model newRegExp s [Value.array files]
      (fun v hv r => by
        have hv1 : v = Value.array files := by simpa using hv
        subst hv1
        exact fun hne => Value.noConfusion hne)
  · rfl

/-! ## The action `deleteFiles` -/

theorem mem_removedRefs (inputs : List Value) :
    ∀ (files : List Ref) (r : Ref),
      r ∈ removedRefs files inputs ↔ (Value.model r ∈ inputs ∧ r ∈ files) := by
  induction inputs with
  | nil => intro files r; simp [removedRefs]
  | cons v rest ih =>
    intro files r
    cases v with
    | file f => simp [removedRefs, ih]
    | array fs => simp [removedRefs, ih]
    | model r0 =>
      by_cases hmem : r0 ∈ files
      · simp only [removedRefs, hmem, if_true, List.mem_cons, ih, List.mem_filter, bne_iff_ne,
          ne_eq, Value.model.injEq]
        constructor
        · rintro (rfl | ⟨h1, h2, _⟩)
          · exact ⟨Or.inl rfl, hmem⟩
          · exact ⟨Or.inr h1, h2⟩
        · rintro ⟨rfl | h1, h2⟩
          · exact Or.inl rfl
          · by_cases hr : r = r0
            · exact Or.inl hr
            · exact Or.inr ⟨h1, h2, hr⟩
      · simp only [removedRefs, hmem, if_false, ih, List.mem_cons, Value.model.injEq]
        constructor
        · rintro ⟨h1, h2⟩
          exact ⟨Or.inr h1, h2⟩
        · rintro ⟨rfl | h1, h2⟩
          · exact absurd h2 hmem
          · exact ⟨h1, h2⟩

theorem removedRefs_pairwise (inputs : List Value) :
    ∀ files : List Ref,
      (removedRefs files inputs).Pairwise
        (fun a b => inputs.indexOf (Value.model a) < inputs.indexOf (Value.model b)) := by
  induction inputs with
  | nil => intro files; simp [removedRefs]
  | cons v rest ih =>
    intro files
    have shift : ∀ (fs : List Ref), (∀ a ∈ removedRefs fs rest, v ≠ Value.model a) →
        (removedRefs fs rest).Pairwise (fun a b =>
          (v :: rest).indexOf (Value.model a) < (v :: rest).indexOf (Value.model b)) := by
      intro fs hne
      refine (ih fs).imp_of_mem ?_
      intro a b ha hb hlt
      rw [List.indexOf_cons_ne _ (hne a ha), List.indexOf_cons_ne _ (hne b hb)]
      exact Nat.succ_lt_succ hlt
    cases v with
    | file f => exact shift files (fun a _ h => Value.noConfusion h)
    | array fs => exact shift files (fun a _ h => Value.noConfusion h)
    | model r0 =>
      by_cases hmem : r0 ∈ files
      · have hne : ∀ a ∈ removedRefs (files.filter fun x => x != r0) rest,
            Value.model r0 ≠ Value.model a := by
          intro a ha h
          have := ((mem_removedRefs rest _ a).mp ha).2
          simp only [List.mem_filter, bne_iff_ne, ne_eq] at this
          exact this.2 (Value.model.inj h).symm
        simp only [removedRefs, hmem, if_true, List.pairwise_cons]
        refine ⟨?_, shift _ hne⟩
        intro b hb
        rw [List.indexOf_cons_self, List.indexOf_cons_ne _ (hne b hb)]
        exact Nat.succ_pos _
      · simp only [removedRefs, hmem, if_false]
        refine shift files ?_
        intro a ha h
        have := ((mem_removedRefs rest _ a).mp ha).2
        exact hmem (Value.model.inj h ▸ this)

/-- The `map` loop of `deleteFiles`: the removed records are flagged
`DELETED` and every occurrence of them leaves the collection. -/
theorem deleteFilesMap_eq :
    ∀ (inputs : List Value) (s : State) (deleted : List Ref),
      deleteFilesMap s deleted inputs =
        ({ s with models := markDeleted s.models (removedRefs s.files inputs),
                  files := s.files.filter fun x => decide (x ∉ removedRefs s.files inputs) },
          deleted ++ removedRefs s.files inputs) := by
  intro inputs
  induction inputs with
  | nil =>
    intro s deleted
    have hheap : markDeleted s.models [] = s.models := by
      funext x
      simp [markDeleted]
    simp [deleteFilesMap, removedRefs, hheap]
  | cons v rest ih =>
    intro s deleted
    cases v with
    | file f => simpa [deleteFilesMap, removedRefs] using ih s deleted
    | array fs => simpa [deleteFilesMap, removedRefs] using ih s deleted
    | model r =>
      by_cases hmem : r ∈ s.files
      · simp only [deleteFilesMap, removedRefs, hmem, decide_True, if_true, ih,
          List.append_assoc, List.singleton_append]
        congr 2
        · funext x
          simp only [markDeleted, List.mem_cons]
          by_cases hxr : x = r
          · subst hxr
            by_cases hx : x ∈ removedRefs (s.files.filter fun y => y != x) rest
            · simp [hx, Model.setStatusType]
            · simp [hx]
          · simp [hxr, Function.update_noteq hxr]
        · rw [List.filter_filter]
          apply List.filter_congr
          intro x _
          by_cases hxr : x = r <;> simp [hxr, List.mem_cons]
      · simpa [deleteFilesMap, removedRefs, hmem] using ih s deleted

/-- The action `deleteFiles` in closed form. -/
theorem deleteFiles_eq (s : State) (inputs : List Value) :
    deleteFiles s inputs =
      { state := { s with
          models := markDeleted s.models (removedRefs s.files inputs),
          files := s.files.filter fun x => decide (x ∉ removedRefs s.files inputs),
          hookLog := s.hookLog ++
            (if removedRefs s.files inputs = [] then []
             else [HookCall.didDelete (removedRefs s.files inputs)]) },
        raised := none } := by
  simp only [deleteFiles, deleteFilesMap_eq, List.nil_append]
  cases removedRefs s.files inputs <;> simp

/-- C6. Postcondition of `deleteFiles`: the call does not raise; (1) every
input that is a `Model` and a member of the collection ends with the status
`DELETED` and no longer occurs in the collection; (2) the collection is the
old one without these records, the others in their old order; (3) every
record that is not both an input and a member is left as it was, status
included; (4) `didDelete` is invoked once with the removed records, each
once, ordered by first occurrence among the inputs, and is not invoked when
nothing was removed. -/
theorem deleteFiles_postcondition (s : State) (inputs : List Value) :
    (deleteFiles s inputs).raised = none ∧
    (∀ r, Value.model r ∈ inputs → r ∈ s.files →
      ((deleteFiles s inputs).state.models r).statusType = DELETED ∧
        r ∉ (deleteFiles s inputs).state.files) ∧
    (deleteFiles s inputs).state.files
      = s.files.filter (fun r => decide (Value.model r ∉ inputs)) ∧
    (∀ r, ¬ (Value.model r ∈ inputs ∧ r ∈ s.files) →
      (deleteFiles s inputs).state.models r = s.models r) ∧
    ∃ removed : List Ref,
      (∀ r, r ∈ removed ↔ (Value.model r ∈ inputs ∧ r ∈ s.files)) ∧
      removed.Pairwise
        (fun a b => inputs.indexOf (Value.model a) < inputs.indexOf (Value.model b)) ∧
      (deleteFiles s inputs).state.hookLog
        = s.hookLog ++ (if removed = [] then [] else [HookCall.didDelete removed]) := by
  have hmem := mem_removedRefs inputs s.files
  rw [deleteFiles_eq]
  refine ⟨rfl, ?_, ?_, ?_, removedRefs s.files inputs, hmem, removedRefs_pairwise inputs s.files,
    rfl⟩
  · intro r hr hfiles
    have hrem : r ∈ removedRefs s.files inputs := (hmem r).mpr ⟨hr, hfiles⟩
    constructor
    · simp [markDeleted, hrem, Model.setStatusType]
    · simp [List.mem_filter, hrem]
  · apply List.filter_congr
    intro x hx
    simp [hmem, hx]
  · intro r hr
    have hrem : r ∉ removedRefs s.files inputs := fun h => hr ((hmem r).mp h)
    simp [markDeleted, hrem]

/-- C7. `deleteFiles` is idempotent: a second call with the same input right
after the first changes nothing (collection, statuses and hook log are those
left by the first call, so `didDelete` is not invoked again) and does not
raise. -/
theorem deleteFiles_idempotent (s : State) (v : Value) :
    deleteFiles (deleteFiles s [v]).state [v]
      = { state := (deleteFiles s [v]).state, raised := none } := by
  have hheap : ∀ models : Ref → Model, markDeleted models [] = models := by
    intro models
    funext x
    simp [markDeleted]
  have hnone : ∀ files : List Ref,
      removedRefs (files.filter fun x => decide (x ∉ removedRefs files [v])) [v] = [] := by
    intro files
    cases v with
    | file f => simp [removedRefs]
    | array fs => simp [removedRefs]
    | model r =>
      by_cases hmem : r ∈ files
      · simp [removedRefs, hmem]
      · simp [removedRefs, hmem]
  rw [deleteFiles_eq (deleteFiles s [v]).state, deleteFiles_eq s]
  simp only [hnone, hheap, if_true, List.append_nil, List.not_mem_nil, not_false_eq_true,
    decide_True, List.filter_true]

/-! ## The action `clearFiles` -/

/-- C8. On a collection of three distinct `VALID` records `clearFiles` invokes
`didDelete` twice, for the records at positions 0 and 2; the record at
position 1 gets no hook and keeps the status `VALID`; the collection ends
empty. -/
theorem clearFiles_three_valid :
    threeValidState.files = [0, 1, 2] ∧
    validFiles threeValidState = [0, 1, 2] ∧
    (clearFiles threeValidState).state.hookLog
      = threeValidState.hookLog ++ [HookCall.didDelete [0], HookCall.didDelete [2]] ∧
    ((clearFiles threeValidState).state.models 0).statusType = DELETED ∧
    ((clearFiles threeValidState).state.models 1).statusType = VALID ∧
    ((clearFiles threeValidState).state.models 2).statusType = DELETED ∧
    (clearFiles threeValidState).state.files = [] := by
  decide

/-! ## The property `requestSize` -/

theorem add_fin_of_le (a b : Nat) (h : a + b ≤ 2 ^ 53) :
    Num.fin a + Num.fin b = Num.fin (a + b) := by
  show Num.add (Num.fin a) (Num.fin b) = Num.fin (a + b)
  rw [Num.add, Num.ofNatRounded, if_pos h]

theorem add_infinity_left (b : Num) : Num.infinity + b = Num.infinity := by
  show Num.add Num.infinity b = Num.infinity
  cases b <;> rfl

theorem add_infinity_right (a : Num) : a + Num.infinity = Num.infinity := by
  show Num.add a Num.infinity = Num.infinity
  cases a <;> rfl

theorem toENat_injective (a b : Num) (h : a.toENat = b.toENat) : a = b := by
  cases a <;> cases b <;> simp [Num.toENat] at h ⊢
  exact h

/-- A JavaScript sum is exact when the finite parts add up to at most `2 ^ 53`. -/
theorem toENat_add (a b : Num) (h : a.finitePart + b.finitePart ≤ 2 ^ 53) :
    (a + b).toENat = a.toENat + b.toENat := by
  cases a with
  | infinity => simp [add_infinity_left, Num.toENat]
  | fin m =>
    cases b with
    | infinity => simp [add_infinity_right, Num.toENat]
    | fin n =>
      rw [add_fin_of_le m n h]
      simp [Num.toENat]

/-- The `reduce` of `requestSize` is exact when the finite sizes add up to at
most `2 ^ 53`: its value is the sum of the values, and its finite part is at
most the sum of the finite parts. -/
theorem foldl_add_exact (l : List Num) :
    ∀ acc : Num, acc.finitePart + (l.map Num.finitePart).sum ≤ 2 ^ 53 →
      (l.foldl (fun size x => size + x) acc).toENat = acc.toENat + (l.map Num.toENat).sum ∧
      (l.foldl (fun size x => size + x) acc).finitePart
        ≤ acc.finitePart + (l.map Num.finitePart).sum := by
  induction l with
  | nil => intro acc _; simp
  | cons x l ih =>
    intro acc h
    simp only [List.map_cons, List.sum_cons, List.foldl_cons] at h ⊢
    cases acc with
    | infinity =>
      rw [add_infinity_left]
      have h1 := ih Num.infinity (by simp only [Num.finitePart] at h ⊢; omega)
      refine ⟨?_, ?_⟩
      · rw [h1.1]
        simp [Num.toENat]
      · have := h1.2
        simp only [Num.finitePart] at this ⊢
        omega
    | fin m =>
      cases x with
      | infinity =>
        rw [add_infinity_right]
        have h1 := ih Num.infinity (by simp only [Num.finitePart] at h ⊢; omega)
        refine ⟨?_, ?_⟩
        · rw [h1.1]
          simp [Num.toENat]
        · have := h1.2
          simp only [Num.finitePart] at this ⊢
          omega
      | fin n =>
        simp only [Num.finitePart] at h
        rw [add_fin_of_le m n (by omega)]
        have h1 := ih (Num.fin (m + n)) (by simp only [Num.finitePart]; omega)
        refine ⟨?_, ?_⟩
        · rw [h1.1]
          simp [Num.toENat, add_assoc]
        · have := h1.2
          simp only [Num.finitePart] at this ⊢
          omega

theorem requestSize_exact (s : State) (h : validTotal s ≤ 2 ^ 53) :
    (requestSize s).toENat = ((validFiles s).map fun r => (s.models r).getFileSize.toENat).sum ∧
    (requestSize s).finitePart ≤ validTotal s := by
  have hfold : requestSize s
      = ((validFiles s).map fun r => (s.models r).getFileSize).foldl (fun size x => size + x) 0 := by
    simp [requestSize, List.foldl_map]
  have hzero : (0 : Num).finitePart = 0 := rfl
  have hzero2 : (0 : Num).toENat = 0 := by
    show Num.toENat (Num.fin 0) = 0
    simp [Num.toENat]
  have hex := foldl_add_exact ((validFiles s).map fun r => (s.models r).getFileSize) 0
    (by simpa [hzero, validTotal, List.map_map, Function.comp] using h)
  rw [hfold]
  constructor
  · rw [hex.1, hzero2, zero_add, List.map_map]
    rfl
  · have := hex.2
    simpa [hzero, validTotal, List.map_map, Function.comp] using this

theorem sum_filter_without {M : Type} [AddCommMonoid M] (f g : Ref → M) (p q : Ref → Bool)
    (r : Ref) (hp : p r = true)
    (hq : ∀ x, x ≠ r → q x = p x) (hg : ∀ x, x ≠ r → g x = f x) (l : List Ref) :
    ((l.filter p).map f).sum
      = (((l.filter fun x => decide (x ∉ [r])).filter q).map g).sum + l.count r • f r := by
  simp only [List.mem_singleton]
  induction l with
  | nil => simp
  | cons x l ih =>
    by_cases hx : x = r
    · subst hx
      simp only [List.filter_cons, hp, if_true, List.map_cons, List.sum_cons, ih,
        not_true_eq_false, decide_False, Bool.false_eq_true, if_false,
        List.count_cons_self, succ_nsmul]
      abel
    · have hne : (x == r) = false := by simpa using hx
      simp only [List.filter_cons, hx, not_false_eq_true, decide_True,
        if_true, hq x hx, List.count_cons, hne, Bool.false_eq_true, if_false, Nat.add_zero]
      cases hpx : p x
      · simpa using ih
      · simp only [if_true, List.map_cons, List.sum_cons, ih, hg x hx, add_assoc]

/-- The sums over `validFiles` before and after `deleteFiles(r)`, for any
additive measure `φ` of the sizes. -/
theorem sum_validFiles_deleteFiles {M : Type} [AddCommMonoid M] (φ : Num → M) (s : State)
    (r : Ref) (hmem : r ∈ s.files) (hvalid : (s.models r).statusType = VALID) :
    ((validFiles s).map fun x => φ (s.models x).getFileSize).sum
      = ((validFiles (deleteFiles s [Value.model r]).state).map fun x =>
          φ ((deleteFiles s [Value.model r]).state.models x).getFileSize).sum
        + s.files.count r • φ (s.models r).getFileSize := by
  have hrem : removedRefs s.files [Value.model r] = [r] := by
    simp [removedRefs, hmem]
  rw [deleteFiles_eq, hrem]
  simp only [validFiles, getFiles]
  apply sum_filter_without (fun x => φ (s.models x).getFileSize)
  · simp only [hvalid]
    decide
  · intro x hx
    simp [markDeleted, hx]
  · intro x hx
    simp [markDeleted, hx]

/-- Beyond the exact range the sum is rounded: with the sizes `2 ^ 53`, 1 and 1
in `validFiles`, `requestSize` is `2 ^ 53`; after the first record is deleted
it is 2, and 2 plus `2 ^ 53` is not `2 ^ 53`. -/
theorem requestSize_rounds_beyond_exact_range :
    validFiles hugeState = [0, 1, 2] ∧
    requestSize hugeState = Num.fin (2 ^ 53) ∧
    requestSize (deleteFiles hugeState [Value.model 0]).state = Num.fin 2 ∧
    Num.fin 2 + Num.fin (2 ^ 53) = Num.fin (2 ^ 53 + 2) ∧
    requestSize hugeState
      ≠ requestSize (deleteFiles hugeState [Value.model 0]).state
        + (hugeState.models 0).getFileSize := by
  decide

/-- C10, counterexample. After the same record (a `VALID` PNG of 10 bytes) was
added twice, `requestSize` is 20; deleting the record removes both entries
and leaves `requestSize` 0, which is not 20 less 10. -/
theorem requestSize_twice_added :
    0 ∈ twiceAddedState.files ∧
    (twiceAddedState.models 0).statusType = VALID ∧
    requestSize twiceAddedState = Num.fin 20 ∧
    requestSize (deleteFiles twiceAddedState [Value.model 0]).state = Num.fin 0 ∧
    requestSize twiceAddedState
      ≠ requestSize (deleteFiles twiceAddedState [Value.model 0]).state
        + (twiceAddedState.models 0).getFileSize := by
  decide

/-- C10, amended. When the known sizes of the records in `validFiles` add up
to at most `2 ^ 53`, so that `requestSize` is an exact sum, deleting a record
`r` that is in the collection with the status `VALID` lowers `requestSize` by
the size of `r` once for every occurrence of `r` in the collection; when `r`
occurs once, `requestSize` before is `requestSize` after plus the size of `r`. -/
theorem requestSize_deleteFiles (s : State) (r : Ref) (hmem : r ∈ s.files)
    (hvalid : (s.models r).statusType = VALID) (hrange : validTotal s ≤ 2 ^ 53) :
    (requestSize s).toENat
      = (requestSize (deleteFiles s [Value.model r]).state).toENat
        + s.files.count r • (s.models r).getFileSize.toENat ∧
    (s.files.count r = 1 →
      requestSize s
        = requestSize (deleteFiles s [Value.model r]).state + (s.models r).getFileSize) := by
  have htotal : validTotal s
      = validTotal (deleteFiles s [Value.model r]).state
        + s.files.count r • (s.models r).getFileSize.finitePart :=
    sum_validFiles_deleteFiles Num.finitePart s r hmem hvalid
  have hrange2 : validTotal (deleteFiles s [Value.model r]).state ≤ 2 ^ 53 := by
    rw [htotal] at hrange
    exact Nat.le_trans (Nat.le_add_right _ _) hrange
  have hbefore := requestSize_exact s hrange
  have hafter := requestSize_exact (deleteFiles s [Value.model r]).state hrange2
  have hmain : (requestSize s).toENat
      = (requestSize (deleteFiles s [Value.model r]).state).toENat
        + s.files.count r • (s.models r).getFileSize.toENat := by
    rw [hbefore.1, hafter.1]
    exact sum_validFiles_deleteFiles Num.toENat s r hmem hvalid
  refine ⟨hmain, ?_⟩
  intro hone
  apply toENat_injective
  rw [hmain, hone, one_nsmul]
  symm
  apply toENat_add
  have h2 := hafter.2
  rw [htotal, hone, one_smul] at hrange
  omega

/-- A single `VALID` PNG of 10 bytes: deleting it lowers `requestSize` from 10 to 0. -/
theorem requestSize_deleteFiles_witness :
    0 ∈ (addFiles newRegExpLiteral (init pngHeap Url.default) [Value.model 0]).state.files ∧
    validTotal (addFiles newRegExpLiteral (init pngHeap Url.default) [Value.model 0]).state
      ≤ 2 ^ 53 ∧
    requestSize (addFiles newRegExpLiteral (init pngHeap Url.default) [Value.model 0]).state
      = requestSize (deleteFiles
          (addFiles newRegExpLiteral (init pngHeap Url.default) [Value.model 0]).state
          [Value.model 0]).state
        + Num.fin 10 :=
  ⟨by decide, by decide,
   (requestSize_deleteFiles
      (addFiles newRegExpLiteral (init pngHeap Url.default) [Value.model 0]).state 0
      (by decide) (by decide) (by decide)).2 (by decide)⟩

/-! ## The action `uploadFiles` -/

/-- C14, counterexample. A fresh engine with a configured url holds one
`VALID` record; after `uploadFiles` and the fulfilment of its promise, which
invokes `didUpload` with the record, the record still has the status `VALID`,
not `UPLOADED`: it is still in `validFiles` and `uploadedFiles` is empty. -/
theorem uploadFiles_keeps_valid_status :
    (oneValidRun.state.models 0).statusType = VALID ∧
    (Run.run newRegExpLiteral oneValidRun
        [Action.uploadFiles, Action.settleUpload]).state.hookLog
      = [HookCall.didAdd [0], HookCall.didUpload [0]] ∧
    ((Run.run newRegExpLiteral oneValidRun
        [Action.uploadFiles, Action.settleUpload]).state.models 0).statusType = VALID ∧
    ((Run.run newRegExpLiteral oneValidRun
        [Action.uploadFiles, Action.settleUpload]).state.models 0).statusType ≠ UPLOADED ∧
    validFiles (Run.run newRegExpLiteral oneValidRun
        [Action.uploadFiles, Action.settleUpload]).state = [0] ∧
    uploadedFiles (Run.run newRegExpLiteral oneValidRun
        [Action.uploadFiles, Action.settleUpload]).state = [] := by
  decide

/-- C14, amended. An upload changes no status: `uploadFiles` leaves the engine
state as it is, and the fulfilment of its promise only invokes `didUpload`;
every record keeps the status it had and the collection is unchanged, so
`validFiles` and `uploadedFiles` are what they were. -/
theorem uploadFiles_changes_no_status (s : State) :
    (uploadFiles s).1.state = s ∧
    ∀ (t : State) (files : List Ref),
      (uploadFilesThen t files).models = t.models ∧
      (uploadFilesThen t files).files = t.files ∧
      validFiles (uploadFilesThen t files) = validFiles t ∧
      uploadedFiles (uploadFilesThen t files) = uploadedFiles t := by
  constructor
  · unfold uploadFiles
    cases resolveUrl s.url <;> rfl
  · intro t files
    exact ⟨rfl, rfl, rfl, rfl⟩

/-- The synchronous part of `uploadFiles` with a configured url. -/
theorem uploadFiles_of_url (s : State) (h : s.url ≠ Url.default) :
    uploadFiles s = ({ state := s, raised := none }, some (validFiles s)) := by
  unfold uploadFiles
  cases hu : s.url with
  | default => exact absurd hu h
  | value v => rfl
  | func v => rfl

/-- C15. With a configured url (a value, or a function returning one)
`uploadFiles` does not raise and leaves the engine state, the collection
included, as it is; its promise is resolved with the records of the
collection whose status is `VALID` at the call, in collection order; the
fulfilment invokes `didUpload` once with exactly these records, whatever
happened to the engine in between, and touches neither the collection nor a
status. -/
theorem uploadFiles_didUpload (s : State) (h : s.url ≠ Url.default) :
    (uploadFiles s).1 = { state := s, raised := none } ∧
    (uploadFiles s).2
      = some (s.files.filter fun r => (s.models r).statusType &&& VALID != 0) ∧
    (uploadFiles s).2 = some (validFiles s) ∧
    (∀ t : State, (uploadFilesThen t (validFiles s)).hookLog
      = t.hookLog ++ [HookCall.didUpload (validFiles s)] ∧
      (uploadFilesThen t (validFiles s)).files = t.files ∧
      (uploadFilesThen t (validFiles s)).models = t.models) ∧
    (∀ (e : Run) (newRegExp : String → Option RegExp), e.state = s → e.pending = [] →
      (Run.run newRegExp e [Action.uploadFiles, Action.settleUpload]).state.hookLog
        = s.hookLog ++ [HookCall.didUpload (validFiles s)] ∧
      (Run.run newRegExp e [Action.uploadFiles, Action.settleUpload]).state.files = s.files) := by
  have hup := uploadFiles_of_url s h
  refine ⟨by rw [hup], ?_, by rw [hup], fun t => ⟨rfl, rfl, rfl⟩, ?_⟩
  · rw [hup]
    rfl
  · intro e newRegExp hs hp
    subst hs
    simp [Run.run, Run.step, hup, hp, uploadFilesThen]

/-- An engine whose url is a plain value, holding one `VALID` record:
`uploadFiles` and the fulfilment of its promise invoke `didUpload` with it. -/
theorem uploadFiles_didUpload_witness :
    oneValidRun.state.url ≠ Url.default ∧
    (uploadFiles oneValidRun.state).2 = some [0] ∧
    (uploadFilesThen oneValidRun.state [0]).hookLog
      = [HookCall.didAdd [0], HookCall.didUpload [0]] :=
  have h := uploadFiles_didUpload oneValidRun.state (by decide)
  ⟨by decide, h.2.2.1, (h.2.2.2.1 oneValidRun.state).1⟩

/-- C16. With the url never configured `uploadFiles` raises the URL-required
error at once: the engine state (collection, statuses, hook log) is
unchanged and no promise is made, so no hook follows; with a url that is a
plain value or a function returning a value it does not raise. -/
theorem uploadFiles_url_required (s : State) :
    (s.url = Url.default →
      uploadFiles s = ({ state := s, raised := some JsError.urlRequired }, none)) ∧
    (∀ (e : Run) (newRegExp : String → Option RegExp), e.state = s → s.url = Url.default →
      Run.step newRegExp e Action.uploadFiles = e) ∧
    (∀ v, s.url = Url.value v → (uploadFiles s).1.raised = none) ∧
    (∀ v, s.url = Url.func v → (uploadFiles s).1.raised = none) ∧
    (uploadFiles (init s.models Url.default)).1.raised = some JsError.urlRequired := by
  refine ⟨?_, ?_, ?_, ?_, rfl⟩
  · intro h
    simp [uploadFiles, resolveUrl, h]
  · intro e newRegExp hs h
    subst hs
    simp [Run.step, uploadFiles, resolveUrl, h]
  · intro v h
    simp [uploadFiles, resolveUrl, h]
  · intro v h
    simp [uploadFiles, resolveUrl, h]

/-! ## Raising, and extending the allowed list -/

/-- C17. The validator raises: with `mimeTypes = [/^image\//, "*/*"]` and a
plain-text record, `isValid` raises a `SyntaxError` instead of returning a
boolean, and `addFiles` with that record raises it too; `deleteFiles` never
raises. -/
theorem isValid_raises_on_wildcard_entry :
    isValid newRegExpLiteral wildcardOptions (textHeap 0)
      = Except.error JsError.syntaxError ∧
    (∀ b, isValid newRegExpLiteral wildcardOptions (textHeap 0) ≠ Except.ok b) ∧
    (addFiles newRegExpLiteral wildcardState [Value.model 0, Value.model 1]).raised
      = some JsError.syntaxError ∧
    (∀ (s : State) (inputs : List Value), (deleteFiles s inputs).raised = none) := by
  refine ⟨by decide, ?_, by decide, ?_⟩
  · intro b
    cases b <;> decide
  · intro s inputs
    rw [deleteFiles_eq]

/-- Extending the allowed list keeps a valid record valid when every string
entry of the extended list is a well-formed pattern. -/
theorem isValid_append_of_wellFormed (newRegExp : String → Option RegExp) (options : Options)
    (T : List MimeType) (model : Model)
    (hwf : ∀ p, MimeType.str p ∈ options.mimeTypes ++ T → (newRegExp p).isSome = true)
    (h : isValid newRegExp options model = Except.ok true) :
    isValid newRegExp { options with mimeTypes := options.mimeTypes ++ T } model
      = Except.ok true := by
  rw [isValid_eq] at h ⊢
  cases hsize : model.getFileSize.le options.maximumSize with
  | false => simp [hsize] at h
  | true =>
    simp only [hsize, if_true] at h ⊢
    have hex : ∃ e ∈ options.mimeTypes, e = MimeType.str model.getMIMEType ∨
        stringMatch newRegExp model.getMIMEType e = Except.ok true := by
      cases hany : options.mimeTypes.any MimeType.isRegExp with
      | false =>
        rw [validMime_exact newRegExp options _ hany] at h
        injection h with h
        exact ⟨_, (any_strictEquals _ _).mp h, Or.inl rfl⟩
      | true =>
        obtain ⟨b, hb, hiff⟩ := someMime_of_wellFormed newRegExp model.getMIMEType
          options.mimeTypes (fun p hp => hwf p (List.mem_append_left _ hp))
        have hv : validMime newRegExp options model.getMIMEType () = Except.ok b := by
          simp [validMime, hany, hb]
        rw [hv] at h
        injection h with h
        exact hiff.mp h
    obtain ⟨e, he, hmatch⟩ := hex
    cases hany : (options.mimeTypes ++ T).any MimeType.isRegExp with
    | false =>
      rw [validMime_exact newRegExp _ _ hany]
      have hL : options.mimeTypes.any MimeType.isRegExp = false := by
        simp only [List.any_append, Bool.or_eq_false_iff] at hany
        exact hany.1
      have hstr : MimeType.str model.getMIMEType ∈ options.mimeTypes := by
        rcases hmatch with h1 | h1
        · exact h1 ▸ he
        · have hv := validMime_exact newRegExp options model.getMIMEType hL
          rw [hv] at h
          injection h with h
          exact (any_strictEquals _ _).mp h
      exact congrArg Except.ok
        ((any_strictEquals _ _).mpr (List.mem_append_left _ hstr))
    | true =>
      obtain ⟨b, hb, hiff⟩ := someMime_of_wellFormed newRegExp model.getMIMEType
        (options.mimeTypes ++ T) hwf
      have hbt : b = true := hiff.mpr ⟨e, List.mem_append_left _ he, hmatch⟩
      simp [validMime, hany, hb, hbt]

/-- C20. Extending the allowed list can turn a valid record into a raise:
under `mimeTypes = ["*/*"]` a record of content type `*/*` is valid; after
the `mimeTypes` action appended the pattern `/^image\//`, the list is the old
one followed by the pattern and `isValid` raises a `SyntaxError` on the same
record instead of returning `true`. -/
theorem isValid_not_monotone_on_wildcard :
    isValid newRegExpLiteral wildcardOnlyOptions wildcardModel = Except.ok true ∧
    wildcardThenImageOptions.mimeTypes
      = wildcardOnlyOptions.mimeTypes ++ [MimeType.regExp imagePattern] ∧
    wildcardThenImageOptions.maximumSize = wildcardOnlyOptions.maximumSize ∧
    isValid newRegExpLiteral wildcardThenImageOptions wildcardModel
      = Except.error JsError.syntaxError := by
  refine ⟨by decide, rfl, rfl, by decide⟩

/-! ## Adding a record again -/

theorem deleteFiles_status_deleted (s : State) (inputs : List Value) (x : Ref)
    (h : (s.models x).statusType = DELETED) :
    ((deleteFiles s inputs).state.models x).statusType = DELETED := by
  rw [deleteFiles_eq]
  simp only [markDeleted]
  split
  · rfl
  · exact h

theorem clearFilesForEach_status_deleted (x : Ref) (indices : List Nat) :
    ∀ s : State, (s.models x).statusType = DELETED →
      ((clearFilesForEach s indices).models x).statusType = DELETED := by
  induction indices with
  | nil => intro s h; exact h
  | cons k ks ih =>
    intro s h
    simp only [clearFilesForEach]
    split
    · exact ih _ (deleteFiles_status_deleted s _ x h)
    · exact ih _ h

/-- The outcome of adding one record on which the validator returns `b`. -/
theorem addFiles_single (newRegExp : String → Option RegExp) (s : State) (r : Ref) (b : Bool)
    (h : isValid newRegExp s.options (s.models r) = Except.ok b) :
    addFiles newRegExp s [Value.model r] =
      { state := { s with
          models := Function.update s.models r
            ((s.models r).setStatusType (if b then VALID else INVALID)),
          files := s.files ++ [r],
          hookLog := s.hookLog ++ [HookCall.didAdd [r]] },
        raised := none } := by
  simp only [addFiles, addFilesMap, h, List.nil_append, List.length_singleton]
  rfl

/-- C13, counterexample. Record 0 was added and deleted, so its status is
`DELETED` and the collection is empty; a later `addFiles` with it runs the
validator again: the record gets the status `VALID` and is back in the
collection. -/
theorem addFiles_revalidates_deleted_record :
    (deletedRun.state.models 0).statusType = DELETED ∧
    deletedRun.state.files = [] ∧
    ((addFiles newRegExpLiteral deletedRun.state [Value.model 0]).state.models 0).statusType
      = VALID ∧
    ((addFiles newRegExpLiteral deletedRun.state [Value.model 0]).state.models 0).statusType
      ≠ DELETED ∧
    (addFiles newRegExpLiteral deletedRun.state [Value.model 0]).state.files = [0] := by
  decide

/-- C13, amended. `addFiles` validates every record it is given, whatever its
status: when the validator returns `b` on `r`, `addFiles(r)` sets the status
of `r` to `VALID` or `INVALID` by `b` and appends `r` to the collection, also
right after `deleteFiles(r)`. The other actions leave a `DELETED` status as
it is. -/
theorem addFiles_revalidates (newRegExp : String → Option RegExp) (s : State) (r : Ref)
    (b : Bool) (h : isValid newRegExp s.options (s.models r) = Except.ok b) :
    (addFiles newRegExp s [Value.model r]).raised = none ∧
    ((addFiles newRegExp s [Value.model r]).state.models r).statusType
      = (if b then VALID else INVALID) ∧
    (addFiles newRegExp s [Value.model r]).state.files = s.files ++ [r] ∧
    ((addFiles newRegExp (deleteFiles s [Value.model r]).state
        [Value.model r]).state.models r).statusType = (if b then VALID else INVALID) ∧
    r ∈ (addFiles newRegExp (deleteFiles s [Value.model r]).state [Value.model r]).state.files ∧
    (∀ x, (s.models x).statusType = DELETED →
      (∀ inputs, ((deleteFiles s inputs).state.models x).statusType = DELETED) ∧
      ((clearFiles s).state.models x).statusType = DELETED ∧
      (∀ arg mode, ((mimeTypes s arg mode).state.models x).statusType = DELETED) ∧
      (((uploadFiles s).1.state.models x).statusType = DELETED) ∧
      (∀ files, ((uploadFilesThen s files).models x).statusType = DELETED) ∧
      ((abortUpload s).state.models x).statusType = DELETED) := by
  have h2 : isValid newRegExp (deleteFiles s [Value.model r]).state.options
      ((deleteFiles s [Value.model r]).state.models r) = Except.ok b := by
    rw [← h, deleteFiles_eq]
    apply isValid_congr_file
    simp only [markDeleted]
    split <;> rfl
  rw [addFiles_single newRegExp s r b h, addFiles_single newRegExp _ r b h2]
  refine ⟨rfl, by simp [Model.setStatusType], rfl, by simp [Model.setStatusType], by simp, ?_⟩
  intro x hx
  refine ⟨fun inputs => deleteFiles_status_deleted s inputs x hx, ?_, ?_, ?_, ?_, ?_⟩
  · exact clearFilesForEach_status_deleted x _ s hx
  · intro arg mode
    simp only [mimeTypes]
    split <;> exact hx
  · unfold uploadFiles
    cases resolveUrl s.url <;> exact hx
  · intro files
    exact hx
  · unfold abortUpload
    split <;> exact hx

/-- After record 0 was added and deleted, the validator returns `true` on it
and `addFiles` classifies it `VALID` again. -/
theorem addFiles_revalidates_witness :
    isValid newRegExpLiteral deletedRun.state.options (deletedRun.state.models 0)
      = Except.ok true ∧
    ((addFiles newRegExpLiteral deletedRun.state [Value.model 0]).state.models 0).statusType
      = VALID :=
  ⟨by decide, (addFiles_revalidates newRegExpLiteral deletedRun.state 0 true (by decide)).2.1⟩

/-! ## `requestSize` when a record is added -/

theorem filter_append_rejected (p p' : Ref → Bool) (r : Ref) (l : List Ref)
    (hr : p' r = false) (hp : ∀ x, x ≠ r → p' x = p x) :
    (l ++ [r]).filter p' = (l.filter fun x => decide (x ∉ [r])).filter p := by
  rw [List.filter_append, List.filter_filter]
  have h1 : [r].filter p' = [] := by simp [hr]
  rw [h1, List.append_nil]
  apply List.filter_congr
  intro x _
  by_cases hx : x = r
  · subst hx
    simp [hr]
  · simp [hx, hp x hx]

theorem filter_without_absent (p : Ref → Bool) (r : Ref) (l : List Ref)
    (h : r ∉ l.filter p) :
    (l.filter fun x => decide (x ∉ [r])).filter p = l.filter p := by
  rw [List.filter_filter]
  apply List.filter_congr
  intro x hx
  by_cases hxr : x = r
  · subst hxr
    have : p x = false := by
      cases hpx : p x
      · rfl
      · exact absurd (List.mem_filter.mpr ⟨hx, hpx⟩) h
    simp [this]
  · simp [hxr]

/-- C11, counterexample. Record 0 is in the collection with the status `VALID`,
admitted under the default list, and `requestSize` is 10; under the list
`["text/plain"]` now in force the validator rejects it, `addFiles` with it
sets the status of the record to `INVALID`, and `requestSize` becomes 0. -/
theorem requestSize_readded_invalid :
    reconfiguredRun.state.files = [0] ∧
    (reconfiguredRun.state.models 0).statusType = VALID ∧
    isValid newRegExpLiteral reconfiguredRun.state.options (reconfiguredRun.state.models 0)
      = Except.ok false ∧
    ((addFiles newRegExpLiteral reconfiguredRun.state [Value.model 0]).state.models 0).statusType
      = INVALID ∧
    requestSize reconfiguredRun.state = Num.fin 10 ∧
    requestSize (addFiles newRegExpLiteral reconfiguredRun.state [Value.model 0]).state
      = Num.fin 0 ∧
    requestSize (addFiles newRegExpLiteral reconfiguredRun.state [Value.model 0]).state
      ≠ requestSize reconfiguredRun.state := by
  decide

/-- C11, amended. When the validator rejects a record `r`, `addFiles(r)`
leaves `requestSize` unchanged provided `r` is not already among
`validFiles`; when `r` is in the collection with the status `VALID`, its
entries become `INVALID` with it and, the known sizes in `validFiles` adding
up to at most `2 ^ 53`, `requestSize` drops by the size of `r` for each of
them. -/
theorem requestSize_addFiles_invalid (newRegExp : String → Option RegExp) (s : State)
    (r : Ref) (h : isValid newRegExp s.options (s.models r) = Except.ok false) :
    ((addFiles newRegExp s [Value.model r]).state.models r).statusType = INVALID ∧
    (r ∉ validFiles s →
      requestSize (addFiles newRegExp s [Value.model r]).state = requestSize s) ∧
    (r ∈ validFiles s → validTotal s ≤ 2 ^ 53 →
      (requestSize s).toENat
        = (requestSize (addFiles newRegExp s [Value.model r]).state).toENat
          + s.files.count r • (s.models r).getFileSize.toENat) := by
  have hfilter : validFiles (addFiles newRegExp s [Value.model r]).state
      = (s.files.filter fun x => decide (x ∉ [r])).filter
          fun x => (s.models x).statusType &&& VALID != 0 := by
    rw [addFiles_single newRegExp s r false h]
    simp only [validFiles, getFiles]
    apply filter_append_rejected
    · simp [Model.setStatusType, INVALID, VALID]
    · intro x hx
      simp [Function.update_noteq hx]
  have hsize : ∀ x, ((addFiles newRegExp s [Value.model r]).state.models x).getFileSize
      = (s.models x).getFileSize := by
    intro x
    rw [addFiles_single newRegExp s r false h]
    by_cases hx : x = r
    · subst hx
      simp [Model.setStatusType, Model.getFileSize]
    · simp [Function.update_noteq hx]
  have hsum : ∀ (M : Type) [AddCommMonoid M] (φ : Num → M), r ∈ validFiles s →
      ((validFiles s).map fun x => φ (s.models x).getFileSize).sum
        = ((validFiles (addFiles newRegExp s [Value.model r]).state).map fun x =>
            φ ((addFiles newRegExp s [Value.model r]).state.models x).getFileSize).sum
          + s.files.count r • φ (s.models r).getFileSize := by
    intro M _ φ hr
    rw [hfilter]
    simp only [hsize, validFiles, getFiles]
    apply sum_filter_without (fun x => φ (s.models x).getFileSize)
    · exact (List.mem_filter.mp hr).2
    · intro x _
      rfl
    · intro x _
      rfl
  refine ⟨?_, ?_, ?_⟩
  · rw [addFiles_single newRegExp s r false h]
    simp [Model.setStatusType]
  · intro hr
    have hlist : validFiles (addFiles newRegExp s [Value.model r]).state = validFiles s := by
      rw [hfilter]
      exact filter_without_absent _ r s.files hr
    have hfun : (fun (size : Num) (x : Ref) =>
          size + ((addFiles newRegExp s [Value.model r]).state.models x).getFileSize)
        = fun size x => size + (s.models x).getFileSize := by
      funext size x
      rw [hsize x]
    simp only [requestSize, hlist, hfun]
  · intro hr hrange
    have htotal : validTotal s
        = validTotal (addFiles newRegExp s [Value.model r]).state
          + s.files.count r • (s.models r).getFileSize.finitePart :=
      hsum ℕ Num.finitePart hr
    have hrange2 : validTotal (addFiles newRegExp s [Value.model r]).state ≤ 2 ^ 53 := by
      rw [htotal] at hrange
      exact Nat.le_trans (Nat.le_add_right _ _) hrange
    rw [(requestSize_exact s hrange).1, (requestSize_exact _ hrange2).1]
    exact hsum ℕ∞ Num.toENat hr

/-- A record that is not in the collection and that the validator rejects:
adding it leaves `requestSize` as it was; and record 0, which is in the
collection as `VALID` with 10 bytes in all in `validFiles`: adding it again
lowers `requestSize` by its size for its one entry. -/
theorem requestSize_addFiles_invalid_witness :
    isValid newRegExpLiteral reconfiguredRun.state.options (reconfiguredRun.state.models 1)
      = Except.ok false ∧
    1 ∉ validFiles reconfiguredRun.state ∧
    requestSize (addFiles newRegExpLiteral reconfiguredRun.state [Value.model 1]).state
      = requestSize reconfiguredRun.state ∧
    0 ∈ validFiles reconfiguredRun.state ∧
    validTotal reconfiguredRun.state ≤ 2 ^ 53 ∧
    (requestSize reconfiguredRun.state).toENat
      = (requestSize (addFiles newRegExpLiteral reconfiguredRun.state [Value.model 0]).state).toENat
        + reconfiguredRun.state.files.count 0
          • (reconfiguredRun.state.models 0).getFileSize.toENat :=
  ⟨by decide, by decide,
   (requestSize_addFiles_invalid newRegExpLiteral reconfiguredRun.state 1 (by decide)).2.1
     (by decide),
   by decide, by decide,
   (requestSize_addFiles_invalid newRegExpLiteral reconfiguredRun.state 0 (by decide)).2.2
     (by decide) (by decide)⟩

/-! ## What `clearFiles` iterates -/

theorem markDeleted_nil (models : Ref → Model) : markDeleted models [] = models := by
  funext x
  simp [markDeleted]

theorem clearFilesForEach_past_end (indices : List Nat) (s : State)
    (h : ∀ k ∈ indices, s.files.length ≤ k) : clearFilesForEach s indices = s := by
  induction indices with
  | nil => rfl
  | cons k ks ih =>
    have hk : s.files.get? k = none := List.get?_eq_none.mpr (h k (List.mem_cons_self _ _))
    simp only [clearFilesForEach, hk]
    exact ih (fun j hj => h j (List.mem_cons_of_mem _ hj))

theorem filter_ne_of_nodup (pre rest : List Ref) (a : Ref) (h : (pre ++ a :: rest).Nodup) :
    (pre ++ a :: rest).filter (fun x => decide (x ∉ [a])) = pre ++ rest := by
  have hpre : a ∉ pre := by
    intro ha
    have := List.nodup_append.mp h
    exact this.2.2 ha (List.mem_cons_self _ _)
  have hrest : a ∉ rest := by
    have := (List.nodup_append.mp h).2.1
    exact (List.nodup_cons.mp this).1
  rw [List.filter_append, List.filter_cons]
  simp only [List.mem_singleton, not_true_eq_false, decide_False, Bool.false_eq_true, if_false]
  congr 1
  · apply List.filter_eq_self.mpr
    intro x hx
    have : x ≠ a := fun hxa => hpre (hxa ▸ hx)
    simpa using this
  · apply List.filter_eq_self.mpr
    intro x hx
    have : x ≠ a := fun hxa => hrest (hxa ▸ hx)
    simpa using this

/-- Deleting a record that occurs once in the collection. -/
theorem deleteFiles_member_nodup (s : State) (pre rest : List Ref) (a : Ref)
    (hfiles : s.files = pre ++ a :: rest) (h : (pre ++ a :: rest).Nodup) :
    (deleteFiles s [Value.model a]).state =
      { s with models := markDeleted s.models [a],
               files := pre ++ rest,
               hookLog := s.hookLog ++ [HookCall.didDelete [a]] } := by
  have hmem : a ∈ s.files := by
    rw [hfiles]
    exact List.mem_append_right _ (List.mem_cons_self _ _)
  have hrem : removedRefs s.files [Value.model a] = [a] := by
    simp [removedRefs, hmem]
  rw [deleteFiles_eq, hrem]
  simp only [hfiles, filter_ne_of_nodup pre rest a h]
  simp

/-- The `forEach` loop of `clearFiles` from index `k` on, when the collection
is `pre ++ rest` with `k` records in `pre` and no record twice: it deletes the
records at the even positions of `rest` and skips the others. -/
theorem clearFilesForEach_alternates :
    ∀ (m k : Nat) (pre rest : List Ref) (s : State),
      s.files = pre ++ rest → pre.length = k → (pre ++ rest).Nodup → rest.length ≤ m →
      clearFilesForEach s (List.range' k m) =
        { s with models := markDeleted s.models (evenPositions rest),
                 files := pre ++ oddPositions rest,
                 hookLog := s.hookLog ++
                   (evenPositions rest).map fun r => HookCall.didDelete [r] } := by
  intro m
  induction m with
  | zero =>
    intro k pre rest s hfiles _ _ hlen
    have hrest : rest = [] := List.length_eq_zero.mp (Nat.le_zero.mp hlen)
    subst hrest
    simp [clearFilesForEach, evenPositions, oddPositions, markDeleted_nil, ← hfiles]
  | succ m ih =>
    intro k pre rest s hfiles hk hnodup hlen
    rw [List.range'_succ]
    cases rest with
    | nil =>
      have hpast : ∀ j ∈ k :: List.range' (k + 1) m, s.files.length ≤ j := by
        intro j hj
        rw [hfiles, List.append_nil, hk]
        rcases List.mem_cons.mp hj with rfl | hj
        · exact Nat.le_refl _
        · exact Nat.le_of_succ_le (List.mem_range'_1.mp hj).1
      rw [clearFilesForEach_past_end _ s hpast]
      simp [evenPositions, oddPositions, markDeleted_nil, ← hfiles]
    | cons a rest1 =>
      have hget : s.files.get? k = some a := by
        rw [List.get?_eq_getElem?, hfiles, List.getElem?_append_right (Nat.le_of_eq hk), hk,
          Nat.sub_self]
        simp
      simp only [clearFilesForEach, hget]
      have hdel := deleteFiles_member_nodup s pre rest1 a hfiles hnodup
      have hnodup1 : (pre ++ rest1).Nodup := by
        have hsub : (pre ++ rest1).Sublist (pre ++ a :: rest1) :=
          List.Sublist.append_left (List.sublist_cons_self a rest1) pre
        exact hnodup.sublist hsub
      cases rest1 with
      | nil =>
        have hpast : ∀ j ∈ List.range' (k + 1) m,
            (deleteFiles s [Value.model a]).state.files.length ≤ j := by
          intro j hj
          rw [hdel]
          simp only [List.append_nil, hk]
          exact Nat.le_of_succ_le (List.mem_range'_1.mp hj).1
        rw [clearFilesForEach_past_end _ _ hpast, hdel]
        simp [evenPositions, oddPositions]
      | cons b rest2 =>
        have hlen2 : rest2.length ≤ m := by
          simp only [List.length_cons] at hlen
          omega
        have hfiles1 : (deleteFiles s [Value.model a]).state.files = (pre ++ [b]) ++ rest2 := by
          rw [hdel]
          simp
        have hnodup2 : ((pre ++ [b]) ++ rest2).Nodup := by
          simpa using hnodup1
        rw [ih (k + 1) (pre ++ [b]) rest2 _ hfiles1 (by simp [hk]) hnodup2 hlen2, hdel]
        simp only [evenPositions, oddPositions, List.map_cons, List.append_assoc,
          List.singleton_append]
        congr 1
        funext x
        simp only [markDeleted, List.mem_singleton, List.mem_cons]
        by_cases hxa : x = a
        · subst hxa
          by_cases hx : x ∈ evenPositions rest2
          · simp [hx, Model.setStatusType]
          · simp [hx]
        · simp [hxa]

theorem evenPositions_getElem? : ∀ (i : Nat) (l : List Ref),
    (evenPositions l)[i]? = l[2 * i]? := by
  intro i
  induction i with
  | zero =>
    intro l
    match l with
    | [] => simp [evenPositions]
    | [_] => simp [evenPositions]
    | _ :: _ :: _ => simp [evenPositions]
  | succ i ih =>
    intro l
    match l with
    | [] => simp [evenPositions]
    | [_] =>
      simp [evenPositions]
      omega
    | _ :: _ :: rest =>
      have h2 : 2 * (i + 1) = 2 * i + 1 + 1 := by omega
      simp only [evenPositions, List.getElem?_cons_succ, h2]
      exact ih rest

theorem oddPositions_getElem? : ∀ (i : Nat) (l : List Ref),
    (oddPositions l)[i]? = l[2 * i + 1]? := by
  intro i
  induction i with
  | zero =>
    intro l
    match l with
    | [] => simp [oddPositions]
    | [_] => simp [oddPositions]
    | _ :: _ :: _ => simp [oddPositions]
  | succ i ih =>
    intro l
    match l with
    | [] => simp [oddPositions]
    | [_] => simp [oddPositions]
    | _ :: _ :: rest =>
      have h2 : 2 * (i + 1) + 1 = 2 * i + 1 + 1 + 1 := by omega
      simp only [oddPositions, List.getElem?_cons_succ, h2]
      exact ih rest

theorem evenPositions_length : ∀ l : List Ref,
    (evenPositions l).length = (l.length + 1) / 2
  | [] => by simp [evenPositions]
  | [_] => by simp [evenPositions]
  | _ :: _ :: rest => by
    simp only [evenPositions, List.length_cons, evenPositions_length rest]
    omega

theorem evenPositions_subset : ∀ (l : List Ref) (r : Ref), r ∈ evenPositions l → r ∈ l
  | [], _, h => by simp [evenPositions] at h
  | [_], _, h => by simpa [evenPositions] using h
  | a :: b :: rest, r, h => by
    simp only [evenPositions, List.mem_cons] at h ⊢
    rcases h with h | h
    · exact Or.inl h
    · exact Or.inr (Or.inr (evenPositions_subset rest r h))

theorem oddPositions_subset : ∀ (l : List Ref) (r : Ref), r ∈ oddPositions l → r ∈ l
  | [], _, h => by simp [oddPositions] at h
  | [_], _, h => by simp [oddPositions] at h
  | a :: b :: rest, r, h => by
    simp only [oddPositions, List.mem_cons] at h ⊢
    rcases h with h | h
    · exact Or.inr (Or.inl h)
    · exact Or.inr (Or.inr (oddPositions_subset rest r h))

theorem oddPositions_not_even : ∀ (l : List Ref), l.Nodup →
    ∀ r, r ∈ oddPositions l → r ∉ evenPositions l
  | [], _, _, h => by simp [oddPositions] at h
  | [_], _, _, h => by simp [oddPositions] at h
  | a :: b :: rest, hnodup, r, h => by
    have h1 := List.nodup_cons.mp hnodup
    have h2 := List.nodup_cons.mp h1.2
    simp only [oddPositions, List.mem_cons] at h
    simp only [evenPositions, List.mem_cons, not_or]
    rcases h with h | h
    · subst h
      refine ⟨?_, fun hr => h2.1 (evenPositions_subset rest _ hr)⟩
      intro hra
      exact h1.1 (hra ▸ List.mem_cons_self _ _)
    · refine ⟨?_, oddPositions_not_even rest h2.2 r h⟩
      intro hra
      exact h1.1 (hra ▸ List.mem_cons_of_mem _ (oddPositions_subset rest r h))

/-- C19. On a collection of pairwise distinct records `clearFiles` invokes
`didDelete` once for each record at an even position (0, 2, 4, ...) of the
collection, in that order and with that record alone, which makes
`ceil(n/2)` invocations for `n` records; these records end `DELETED`; the
records at the odd positions get no hook and are left as they were, status
included; the collection ends empty and the call does not raise. -/
theorem clearFiles_alternates (s : State) (h : s.files.Nodup) :
    (clearFiles s).raised = none ∧
    (clearFiles s).state.hookLog
      = s.hookLog ++ (evenPositions s.files).map (fun r => HookCall.didDelete [r]) ∧
    (evenPositions s.files).length = (s.files.length + 1) / 2 ∧
    (∀ i, (evenPositions s.files)[i]? = s.files[2 * i]?) ∧
    (∀ i, (oddPositions s.files)[i]? = s.files[2 * i + 1]?) ∧
    (∀ r ∈ evenPositions s.files, ((clearFiles s).state.models r).statusType = DELETED) ∧
    (∀ r ∈ oddPositions s.files, (clearFiles s).state.models r = s.models r) ∧
    (∀ r, r ∉ evenPositions s.files → (clearFiles s).state.models r = s.models r) ∧
    (clearFiles s).state.files = [] := by
  have hloop := clearFilesForEach_alternates s.files.length 0 [] s.files s rfl rfl h
    (Nat.le_refl _)
  have hkeep : ∀ r, r ∉ evenPositions s.files → (clearFiles s).state.models r = s.models r := by
    intro r hr
    simp only [clearFiles, List.range_eq_range', hloop, markDeleted, hr, if_false]
  refine ⟨rfl, ?_, evenPositions_length _, fun i => evenPositions_getElem? i _,
    fun i => oddPositions_getElem? i _, ?_, ?_, hkeep, rfl⟩
  · simp only [clearFiles, List.range_eq_range', hloop]
  · intro r hr
    simp only [clearFiles, List.range_eq_range', hloop, markDeleted, hr, if_true,
      Model.setStatusType]
  · intro r hr
    exact hkeep r (oddPositions_not_even _ h r hr)

/-- Three distinct `VALID` records: `didDelete` is invoked for the first and
the third, and the second keeps the status `VALID`. -/
theorem clearFiles_alternates_witness :
    threeValidState.files.Nodup ∧
    (clearFiles threeValidState).state.hookLog
      = threeValidState.hookLog ++ [HookCall.didDelete [0], HookCall.didDelete [2]] ∧
    (clearFiles threeValidState).state.models 1 = threeValidState.models 1 :=
  have h := clearFiles_alternates threeValidState (by decide)
  ⟨by decide, h.2.1, h.2.2.2.2.2.2.1 1 (by decide)⟩

/-! ## The status invariant of the action protocol -/

theorem addFilesMap_invariant (newRegExp : String → Option RegExp) (ever : List Ref) :
    ∀ (files : List Value) (s : State) (added : List Ref),
      StatusInvariant s.models s.files (ever ++ added) →
      StatusInvariant (addFilesMap newRegExp s added files).1.models
        (addFilesMap newRegExp s added files).1.files
        (ever ++ (addFilesMap newRegExp s added files).2.1) := by
  intro files
  induction files with
  | nil => intro s added h; exact h
  | cons v rest ih =>
    intro s added h
    cases v with
    | file f => exact ih s added h
    | array fs => exact ih s added h
    | model r =>
      simp only [addFilesMap]
      cases hv : isValid newRegExp s.options (s.models r) with
      | error e => exact h
      | ok b =>
        simp only
        apply ih
        have hnew : ((s.models r).setStatusType (if b then VALID else INVALID)).statusType = VALID ∨
            ((s.models r).setStatusType (if b then VALID else INVALID)).statusType = INVALID := by
          cases b
          · exact Or.inr rfl
          · exact Or.inl rfl
        obtain ⟨h1, h2, h3⟩ := h
        show StatusInvariant
          (Function.update s.models r ((s.models r).setStatusType (if b then VALID else INVALID)))
          (s.files ++ [r]) (ever ++ (added ++ [r]))
        refine ⟨?_, ?_, ?_⟩
        · intro x hx
          by_cases hxr : x = r
          · subst hxr
            simpa using hnew
          · rw [Function.update_noteq hxr]
            rcases List.mem_append.mp hx with hx | hx
            · exact h1 x hx
            · exact absurd (List.mem_singleton.mp hx) hxr
        · intro x hx
          by_cases hxr : x = r
          · subst hxr
            rw [Function.update_same]
            rcases hnew with hn | hn
            · exact Or.inl hn
            · exact Or.inr (Or.inl hn)
          · rw [Function.update_noteq hxr]
            apply h2 x
            rw [← List.append_assoc] at hx
            rcases List.mem_append.mp hx with hx | hx
            · exact hx
            · exact absurd (List.mem_singleton.mp hx) hxr
        · intro x hx
          rw [← List.append_assoc]
          rcases List.mem_append.mp hx with hx | hx
          · exact List.mem_append_left _ (h3 x hx)
          · exact List.mem_append_right _ hx

theorem addFiles_state_models_files (newRegExp : String → Option RegExp) (s : State)
    (files : List Value) :
    (addFiles newRegExp s files).state.models = (addFilesMap newRegExp s [] files).1.models ∧
    (addFiles newRegExp s files).state.files = (addFilesMap newRegExp s [] files).1.files := by
  unfold addFiles
  rcases addFilesMap newRegExp s [] files with ⟨s1, added, e⟩
  cases e with
  | some e => exact ⟨rfl, rfl⟩
  | none =>
    simp only
    split <;> exact ⟨rfl, rfl⟩

theorem deleteFiles_invariant (s : State) (inputs : List Value) (ever : List Ref)
    (h : StatusInvariant s.models s.files ever) :
    StatusInvariant (deleteFiles s inputs).state.models (deleteFiles s inputs).state.files
      ever := by
  obtain ⟨h1, h2, h3⟩ := h
  rw [deleteFiles_eq]
  refine ⟨?_, ?_, ?_⟩
  · intro x hx
    have hx2 := List.mem_filter.mp hx
    have hnot : x ∉ removedRefs s.files inputs := by simpa using hx2.2
    simp only [markDeleted, hnot, if_false]
    exact h1 x hx2.1
  · intro x hx
    simp only [markDeleted]
    split
    · exact Or.inr (Or.inr rfl)
    · exact h2 x hx
  · intro x hx
    exact h3 x (List.mem_filter.mp hx).1

theorem clearFilesForEach_invariant (ever : List Ref) (indices : List Nat) :
    ∀ s : State, StatusInvariant s.models s.files ever →
      StatusInvariant (clearFilesForEach s indices).models
        (clearFilesForEach s indices).files ever := by
  induction indices with
  | nil => intro s h; exact h
  | cons k ks ih =>
    intro s h
    simp only [clearFilesForEach]
    split
    · exact ih _ (deleteFiles_invariant s _ ever h)
    · exact ih _ h

theorem step_invariant (newRegExp : String → Option RegExp) (e : Run) (a : Action)
    (h : StatusInvariant e.state.models e.state.files e.everAdded) :
    StatusInvariant (Run.step newRegExp e a).state.models (Run.step newRegExp e a).state.files
      (Run.step newRegExp e a).everAdded := by
  cases a with
  | addFiles files =>
    have hmap := addFilesMap_invariant newRegExp e.everAdded files e.state []
      (by simpa using h)
    have heq := addFiles_state_models_files newRegExp e.state files
    simp only [Run.step, heq.1, heq.2]
    exact hmap
  | deleteFiles files => exact deleteFiles_invariant e.state files e.everAdded h
  | clearFiles =>
    have hloop := clearFilesForEach_invariant e.everAdded (List.range e.state.files.length)
      e.state h
    refine ⟨?_, hloop.2.1, ?_⟩
    · intro x hx
      simp [Run.step, clearFiles] at hx
    · intro x hx
      simp [Run.step, clearFiles] at hx
  | mimeTypes arg mode =>
    simp only [Run.step, mimeTypes]
    split <;> exact h
  | uploadFiles =>
    simp only [Run.step, uploadFiles]
    cases resolveUrl e.state.url <;> exact h
  | abortUpload =>
    simp only [Run.step, abortUpload]
    split <;> exact h
  | setOptions options => exact h
  | settleUpload =>
    simp only [Run.step]
    cases e.pending with
    | nil => exact h
    | cons files rest => exact h

/-- The status invariant holds in every state of a run from a fresh engine. -/
theorem run_invariant (newRegExp : String → Option RegExp) (actions : List Action) :
    ∀ e : Run, StatusInvariant e.state.models e.state.files e.everAdded →
      StatusInvariant (Run.run newRegExp e actions).state.models
        (Run.run newRegExp e actions).state.files (Run.run newRegExp e actions).everAdded := by
  induction actions with
  | nil => intro e h; exact h
  | cons a rest ih =>
    intro e h
    exact ih _ (step_invariant newRegExp e a h)

theorem start_invariant (heap : Ref → Model) (url : Url) :
    StatusInvariant (Run.start heap url).state.models (Run.start heap url).state.files
      (Run.start heap url).everAdded :=
  ⟨fun _ h => absurd h (List.not_mem_nil _), fun _ h => absurd h (List.not_mem_nil _),
    fun _ h => absurd h (List.not_mem_nil _)⟩

/-- The views of a collection whose records are all `VALID` or `INVALID`. -/
theorem views_of_valid_or_invalid (s : State)
    (h : ∀ r ∈ s.files, (s.models r).statusType = VALID ∨ (s.models r).statusType = INVALID) :
    validFiles s = s.files.filter (fun r => decide ((s.models r).statusType = VALID)) ∧
    invalidFiles s = s.files.filter (fun r => decide ((s.models r).statusType = INVALID)) ∧
    deletedFiles s = [] ∧ uploadedFiles s = [] := by
  refine ⟨?_, ?_, ?_, ?_⟩
  · apply List.filter_congr
    intro x hx
    rcases h x hx with hs | hs <;> rw [hs] <;> decide
  · apply List.filter_congr
    intro x hx
    rcases h x hx with hs | hs <;> rw [hs] <;> decide
  · apply List.filter_eq_nil_iff.mpr
    intro x hx
    rcases h x hx with hs | hs <;> rw [hs] <;> decide
  · apply List.filter_eq_nil_iff.mpr
    intro x hx
    rcases h x hx with hs | hs <;> rw [hs] <;> decide

/-- C12, counterexample. Record 0 was added and then deleted: it is a record
that was added and its status is `DELETED`, yet it is not in `deletedFiles`,
nor in any other view. -/
theorem deleted_record_in_no_view :
    0 ∈ deletedRun.everAdded ∧
    (deletedRun.state.models 0).statusType = DELETED ∧
    0 ∉ deletedFiles deletedRun.state ∧
    0 ∉ validFiles deletedRun.state ∧
    0 ∉ invalidFiles deletedRun.state ∧
    0 ∉ uploadedFiles deletedRun.state := by
  decide

/-- C12, amended. In every state of a run of the actions from a fresh engine,
the four views together hold exactly the records that are in the collection,
all of which were added before; `validFiles` and `invalidFiles` list the
records of the collection with the status `VALID`, respectively `INVALID`, in
collection order; `deletedFiles` and `uploadedFiles` are empty; and no record
is in two views. -/
theorem views_cover_collection (newRegExp : String → Option RegExp) (heap : Ref → Model)
    (url : Url) (actions : List Action) :
    (∀ r, (r ∈ validFiles (Run.run newRegExp (Run.start heap url) actions).state ∨
        r ∈ invalidFiles (Run.run newRegExp (Run.start heap url) actions).state ∨
        r ∈ deletedFiles (Run.run newRegExp (Run.start heap url) actions).state ∨
        r ∈ uploadedFiles (Run.run newRegExp (Run.start heap url) actions).state)
      ↔ r ∈ (Run.run newRegExp (Run.start heap url) actions).state.files) ∧
    (∀ r ∈ (Run.run newRegExp (Run.start heap url) actions).state.files,
      r ∈ (Run.run newRegExp (Run.start heap url) actions).everAdded) ∧
    validFiles (Run.run newRegExp (Run.start heap url) actions).state
      = (Run.run newRegExp (Run.start heap url) actions).state.files.filter
          (fun r => decide
            (((Run.run newRegExp (Run.start heap url) actions).state.models r).statusType
              = VALID)) ∧
    invalidFiles (Run.run newRegExp (Run.start heap url) actions).state
      = (Run.run newRegExp (Run.start heap url) actions).state.files.filter
          (fun r => decide
            (((Run.run newRegExp (Run.start heap url) actions).state.models r).statusType
              = INVALID)) ∧
    deletedFiles (Run.run newRegExp (Run.start heap url) actions).state = [] ∧
    uploadedFiles (Run.run newRegExp (Run.start heap url) actions).state = [] ∧
    (∀ r, ¬ (r ∈ validFiles (Run.run newRegExp (Run.start heap url) actions).state ∧
        r ∈ invalidFiles (Run.run newRegExp (Run.start heap url) actions).state)) := by
  have hinv := run_invariant newRegExp actions (Run.start heap url) (start_invariant heap url)
  generalize Run.run newRegExp (Run.start heap url) actions = e at hinv ⊢
  obtain ⟨h1, _, h3⟩ := hinv
  obtain ⟨hv, hi, hd, hu⟩ := views_of_valid_or_invalid e.state h1
  refine ⟨?_, h3, hv, hi, hd, hu, ?_⟩
  · intro r
    rw [hv, hi, hd, hu]
    simp only [List.mem_filter, decide_eq_true_eq, List.not_mem_nil, or_false]
    constructor
    · rintro (h | h) <;> exact h.1
    · intro h
      rcases h1 r h with hs | hs
      · exact Or.inl ⟨h, hs⟩
      · exact Or.inr ⟨h, hs⟩
  · intro r
    rw [hv, hi]
    simp only [List.mem_filter, decide_eq_true_eq]
    rintro ⟨⟨_, ha⟩, ⟨_, hb⟩⟩
    rw [ha] at hb
    exact absurd hb (by decide)

/-- C18. In every state of a run of `addFiles`, `deleteFiles`, `clearFiles`,
`mimeTypes`, `uploadFiles` and `abortUpload` (with the settling of upload
promises and writes to the options map in between) from a fresh engine:
every record in the collection has the status `VALID` or `INVALID`, so
`deletedFiles` and `uploadedFiles` are empty; every record that was ever
added has the status `VALID`, `INVALID` or `DELETED`, hence neither `NONE`
nor `FAILED`; and `deleteFiles` leaves no occurrence of a record it was given. -/
theorem status_invariant (newRegExp : String → Option RegExp) (heap : Ref → Model)
    (url : Url) (actions : List Action) :
    (∀ r ∈ (Run.run newRegExp (Run.start heap url) actions).state.files,
      ((Run.run newRegExp (Run.start heap url) actions).state.models r).statusType = VALID ∨
      ((Run.run newRegExp (Run.start heap url) actions).state.models r).statusType
        = INVALID) ∧
    deletedFiles (Run.run newRegExp (Run.start heap url) actions).state = [] ∧
    uploadedFiles (Run.run newRegExp (Run.start heap url) actions).state = [] ∧
    (∀ r ∈ (Run.run newRegExp (Run.start heap url) actions).everAdded,
      ((Run.run newRegExp (Run.start heap url) actions).state.models r).statusType = VALID ∨
      ((Run.run newRegExp (Run.start heap url) actions).state.models r).statusType = INVALID ∨
      ((Run.run newRegExp (Run.start heap url) actions).state.models r).statusType
        = DELETED) ∧
    (∀ r ∈ (Run.run newRegExp (Run.start heap url) actions).everAdded,
      ((Run.run newRegExp (Run.start heap url) actions).state.models r).statusType ≠ NONE ∧
      ((Run.run newRegExp (Run.start heap url) actions).state.models r).statusType
        ≠ FAILED) ∧
    (∀ (s : State) (inputs : List Value) (r : Ref), Value.model r ∈ inputs →
      r ∉ (deleteFiles s inputs).state.files) := by
  have hinv := run_invariant newRegExp actions (Run.start heap url) (start_invariant heap url)
  generalize Run.run newRegExp (Run.start heap url) actions = e at hinv ⊢
  obtain ⟨h1, h2, _⟩ := hinv
  obtain ⟨_, _, hd, hu⟩ := views_of_valid_or_invalid e.state h1
  refine ⟨h1, hd, hu, h2, ?_, ?_⟩
  · intro r hr
    rcases h2 r hr with hs | hs | hs <;> rw [hs] <;> exact ⟨by decide, by decide⟩
  · intro s inputs r hr hmem
    rw [deleteFiles_eq] at hmem
    have hmem2 := List.mem_filter.mp hmem
    have hnot : r ∉ removedRefs s.files inputs := by simpa using hmem2.2
    exact hnot ((mem_removedRefs inputs s.files r).mpr ⟨hr, hmem2.1⟩)

end Droplet
